import Mathlib

/-!
Verification of the `consistent` package (consistent.go): a consistent-hash
ring mapping string keys to registered node handles.

Shallow embedding conventions:
* Go strings are modelled as lists of bytes (`List Nat`).
* A `lineProtocol.WriteCloser` interface value is modelled as a `Node`
  handle: an identity (`id`) plus the string returned by `Name()`.
  Interface equality in Go is handle equality, modelled by structural
  equality of `Node`.
* `map[uint32]WriteCloser` is modelled as an association list with unique
  keys; `map[WriteCloser]bool` as a list of nodes (the key set).
* `uint32` values are `Nat`; CRC32 only uses xor and right shifts of
  values below 2^32, so no modular reduction is ever needed.
* Go map reads of absent keys yield the zero value (`nil` interface),
  modelled by `Option Node` with `none` for `nil`.
* The unbounded `for` loops in `GetTwo`/`GetN` are modelled with explicit
  fuel `sortedHashes.length + 1`; every execution of the Go loop that
  terminates performs at most that many iterations, so on such states the
  model agrees with the code (fuel exhaustion corresponds to a Go
  execution that never terminates).
-/

/-- A node handle: the identity of a `lineProtocol.WriteCloser` interface
value together with its `Name()` string (as a byte list).  Two handles with
the same name but different identity are different handles, as in Go. -/
structure Node where
  id : Nat
  name : List Nat
deriving DecidableEq, Repr

/-- The single error value of the package, `ErrEmptyCircle`. -/
inductive GoError where
  | emptyCircle
deriving DecidableEq, Repr

deriving instance DecidableEq for Except

/-- Association-list lookup, modelling a Go map read: the mapped value, or
`none` (Go: the `nil` zero value) when the key is absent. -/
def mapLookup (m : List (Nat × Node)) (k : Nat) : Option Node :=
  (m.find? (fun p => p.1 = k)).map (fun p => p.2)

/-- Association-list insert, modelling Go `m[k] = v`: any previous binding
of `k` is replaced. -/
def mapInsert (m : List (Nat × Node)) (k : Nat) (v : Node) : List (Nat × Node) :=
  (k, v) :: m.filter (fun p => p.1 ≠ k)

/-- Association-list delete, modelling Go `delete(m, k)`. -/
def mapDelete (m : List (Nat × Node)) (k : Nat) : List (Nat × Node) :=
  m.filter (fun p => p.1 ≠ k)

/-- Set-insert on the member list, modelling Go `m[element] = true` on a
`map[WriteCloser]bool`. -/
def memInsert (m : List Node) (el : Node) : List Node :=
  if m.contains el then m else m ++ [el]

/-- One bit step of the reflected CRC32 (IEEE polynomial 0xEDB88320),
as performed per table entry by `hash/crc32`. -/
def crcRound (c : Nat) : Nat :=
  if c % 2 = 1 then (c >>> 1) ^^^ 0xEDB88320 else c >>> 1

/-- Absorb one byte into the CRC32 state (eight bit steps). -/
def crcByte (c b : Nat) : Nat :=
  crcRound^[8] (c ^^^ b)

/-- `crc32.ChecksumIEEE` over a byte list. -/
def crc32 (data : List Nat) : Nat :=
  (data.foldl crcByte 0xFFFFFFFF) ^^^ 0xFFFFFFFF

/-- Digit expansion behind `itoa`, structurally recursive on a fuel bound
so that it reduces in the kernel; `n / 10 < n` for `n ≥ 10`, so fuel
`n + 1` always suffices and the fuel case is never reached. -/
def itoaGo : Nat → Nat → List Nat
  | 0, _ => []
  | fuel + 1, n => if n < 10 then [48 + n] else itoaGo fuel (n / 10) ++ [48 + n % 10]

/-- `strconv.Itoa` for a natural number: its decimal digits as bytes. -/
def itoa (n : Nat) : List Nat :=
  itoaGo (n + 1) n

/-- `elementKey`: the replica key `strconv.Itoa(index) + element.Name()`. -/
def elementKey (element : Node) (index : Nat) : List Nat :=
  itoa index ++ element.name

/-- `hashKey`: CRC32 of the key, with the source's short-string branch that
copies the key into a zeroed 64-byte scratch array and checksums its first
`len(key)` bytes. -/
def hashKey (key : List Nat) : Nat :=
  if key.length < 64 then
    let scratch := key ++ List.replicate (64 - key.length) 0
    crc32 (scratch.take key.length)
  else
    crc32 key

/-- The ring state (`Consistent` struct).  The `sync.RWMutex` and the
`scratch` buffer carry no observable state and are omitted. -/
structure Consistent where
  circle : List (Nat × Node)
  members : List Node
  sortedHashes : List Nat
  NumberOfReplicas : Nat
  count : Int
deriving DecidableEq, Repr

namespace Consistent

/-- `New()`: empty ring with the default 20 replicas. -/
def new : Consistent :=
  { circle := [], members := [], sortedHashes := [], NumberOfReplicas := 20, count := 0 }

/-- `updateSortedHashes`: rebuild the sorted position cache from the keys of
the position table.  The Go code iterates the map keys and runs `sort.Sort`
(the capacity-reuse heuristic does not affect the value), so the result is
the ascending sort of the key multiset — a list that is independent of the
sorting algorithm, since `Nat` is totally ordered.  `insertionSort` is used
because it reduces in the kernel. -/
def updateSortedHashes (c : Consistent) : Consistent :=
  { c with sortedHashes := (c.circle.map Prod.fst).insertionSort (· ≤ ·) }

/-- The unexported `add`: place all replica positions, register the member,
rebuild the cache, increment the count. -/
def add (c : Consistent) (element : Node) : Consistent :=
  let circle := (List.range c.NumberOfReplicas).foldl
    (fun m i => mapInsert m (hashKey (elementKey element i)) element) c.circle
  let c' := updateSortedHashes { c with circle := circle, members := memInsert c.members element }
  { c' with count := c'.count + 1 }

/-- `Add` takes the lock and calls `add`; locking is unobservable here. -/
def Add (c : Consistent) (element : Node) : Consistent :=
  add c element

/-- The unexported `remove`: delete all replica positions, unregister the
member, rebuild the cache, decrement the count. -/
def remove (c : Consistent) (element : Node) : Consistent :=
  let circle := (List.range c.NumberOfReplicas).foldl
    (fun m i => mapDelete m (hashKey (elementKey element i))) c.circle
  let members := c.members.filter (fun x => x ≠ element)
  let c' := updateSortedHashes { c with circle := circle, members := members }
  { c' with count := c'.count - 1 }

/-- `Remove` takes the lock and calls `remove`. -/
def Remove (c : Consistent) (element : Node) : Consistent :=
  remove c element

/-- `Set`: first pass removes every current member not in `elements`
(ranging over the membership map; deleting the visited key during `range`
is equivalent to iterating a snapshot), second pass adds every element not
already a member. -/
def Set (c : Consistent) (elements : List Node) : Consistent :=
  let c1 := c.members.foldl
    (fun acc k => if elements.contains k then acc else remove acc k) c
  elements.foldl
    (fun acc v => if acc.members.contains v then acc else add acc v) c1

/-- `search`: `sort.Search` over the sorted cache for the first index whose
position is strictly greater than `key` (`sort.Search` returns the smallest
index at which the predicate holds, or the length if none), then wrap an
out-of-range result to 0. -/
def search (c : Consistent) (key : Nat) : Nat :=
  let i := c.sortedHashes.findIdx (fun x => decide (key < x))
  if c.sortedHashes.length ≤ i then 0 else i

/-- `Get`: hash the name, binary-search the cache, read the owning node. -/
def Get (c : Consistent) (name : List Nat) : Except GoError (Option Node) :=
  if c.circle.isEmpty then
    .error .emptyCircle
  else
    let key := hashKey name
    let i := search c key
    .ok (mapLookup c.circle (c.sortedHashes.getD i 0))

/-- The walk loop of `GetTwo`: `for i = start + 1; i != start; i++`, with
in-body wrap of `i` past the end, reading `b` at each position and breaking
at the first `b != a`.  `fuel` bounds the number of iterations. -/
def getTwoLoop (c : Consistent) (a : Option Node) (start : Nat) :
    Nat → Nat → Option Node → Option Node
  | 0, _, b => b
  | fuel + 1, i, b =>
    if i = start then b
    else
      let i' := if c.sortedHashes.length ≤ i then 0 else i
      let b' := mapLookup c.circle (c.sortedHashes.getD i' 0)
      if b' ≠ a then b' else getTwoLoop c a start fuel (i' + 1) b'

/-- `GetTwo`: the primary node, then the first distinct node on the forward
wrapping walk; short-circuits to an absent second when `count == 1`. -/
def GetTwo (c : Consistent) (name : List Nat) :
    Except GoError (Option Node × Option Node) :=
  if c.circle.isEmpty then
    .error .emptyCircle
  else
    let key := hashKey name
    let i := search c key
    let a := mapLookup c.circle (c.sortedHashes.getD i 0)
    if c.count = 1 then
      .ok (a, none)
    else
      .ok (a, getTwoLoop c a i (c.sortedHashes.length + 1) (i + 1) none)

/-- `sliceContainsMember`: linear membership test by handle equality. -/
def sliceContainsMember (s : List (Option Node)) (member : Option Node) : Bool :=
  s.any (fun m => m = member)

/-- The walk loop of `GetN`: same circular walk, appending each node not
already collected and breaking once `n` nodes are collected. -/
def getNLoop (c : Consistent) (n : Nat) (start : Nat) :
    Nat → Nat → List (Option Node) → List (Option Node)
  | 0, _, res => res
  | fuel + 1, i, res =>
    if i = start then res
    else
      let i' := if c.sortedHashes.length ≤ i then 0 else i
      let elem := mapLookup c.circle (c.sortedHashes.getD i' 0)
      let res' := if sliceContainsMember res elem then res else res ++ [elem]
      if res'.length = n then res'
      else getNLoop c n start fuel (i' + 1) res'

/-- `GetN`: clamp `n` to `count`, collect the primary node, then walk for
further distinct nodes. -/
def GetN (c : Consistent) (name : List Nat) (n : Nat) :
    Except GoError (List (Option Node)) :=
  if c.circle.isEmpty then
    .error .emptyCircle
  else
    let n := if c.count < (n : Int) then c.count.toNat else n
    let key := hashKey name
    let i := search c key
    let start := i
    let elem := mapLookup c.circle (c.sortedHashes.getD i 0)
    let res := [elem]
    if res.length = n then .ok res
    else .ok (getNLoop c n start (c.sortedHashes.length + 1) (start + 1) res)

end Consistent

/-! ## Specification-side definitions -/

namespace Consistent

/-- Keys of the position table are pairwise distinct.  Every state that a Go
`map[uint32]WriteCloser` can represent satisfies this; it is a side condition
of the association-list encoding, not of the program. -/
def keysNodup (m : List (Nat × Node)) : Prop :=
  (m.map Prod.fst).Nodup

/-- The sorted position cache invariant: ascending (hence duplicate-free)
and containing exactly the keys of the position table. -/
def cacheInv (c : Consistent) : Prop :=
  c.sortedHashes.Sorted (· < ·) ∧
  (∀ k ∈ c.sortedHashes, k ∈ c.circle.map Prod.fst) ∧
  (∀ k ∈ c.circle.map Prod.fst, k ∈ c.sortedHashes)

/-- Well-formedness of a ring state: the map encoding is valid, the sorted
cache reflects the position table, every stored node is a registered member,
every member owns at least one position, the membership list is a set, and
the count agrees with the membership size.  All mutations of the source
maintain this on collision-free inputs; the query theorems assume it. -/
def WF (c : Consistent) : Prop :=
  keysNodup c.circle ∧
  cacheInv c ∧
  (∀ p ∈ c.circle, p.2 ∈ c.members) ∧
  (∀ m ∈ c.members, ∃ p ∈ c.circle, p.2 = m) ∧
  c.members.Nodup ∧
  c.count = (c.members.length : Int)

/-- The ring position the code's `search` selects, value-level: the first
cache entry strictly greater than `k`, or the smallest cache entry (the
head of the ascending cache) when no entry exceeds `k`. -/
def minAbove (l : List Nat) (k : Nat) : Nat :=
  (l.find? (fun h => decide (k < h))).getD (l.headD 0)

/-- Modelled from the claim's words (not from the source): the first cache
entry greater than or equal to `k`, wrapping to the smallest entry.  Used
only to state the original form of the lookup claim. -/
def specMinAtLeast (l : List Nat) (k : Nat) : Nat :=
  (l.find? (fun h => decide (k ≤ h))).getD (l.headD 0)

/-- Deduplication keeping the first occurrence of each element, the order
in which the `GetN` walk collects distinct nodes. -/
def firstDedup : List (Option Node) → List (Option Node)
  | [] => []
  | x :: xs => x :: firstDedup (xs.filter (fun y => y ≠ x))
termination_by l => l.length
decreasing_by
  exact Nat.lt_succ_of_le (List.length_filter_le _ _)

/-- The list of node values read by the circular walk of `GetTwo`/`GetN`
starting at pre-wrap index `i`, stopping at `start` or after `fuel` steps:
the value trace of the loop, used to reason about both loops at once. -/
def walkVals (c : Consistent) (start : Nat) : Nat → Nat → List (Option Node)
  | 0, _ => []
  | fuel + 1, i =>
    if i = start then []
    else
      let i' := if c.sortedHashes.length ≤ i then 0 else i
      mapLookup c.circle (c.sortedHashes.getD i' 0) :: walkVals c start fuel (i' + 1)

/-- What `GetTwo`'s loop returns given the value trace: the first value
different from `a`, else the last examined value, else the initial `b`. -/
def walkBreak (a b : Option Node) (vs : List (Option Node)) : Option Node :=
  match vs.find? (fun v => v ≠ a) with
  | some v => v
  | none => vs.getLastD b

/-- What `GetN`'s loop does to `res` given the value trace: append unseen
values, stopping as soon as `n` values are collected. -/
def collectVals (n : Nat) : List (Option Node) → List (Option Node) → List (Option Node)
  | [], res => res
  | v :: vs, res =>
    let res' := if sliceContainsMember res v then res else res ++ [v]
    if res'.length = n then res' else collectVals n vs res'

/-- The same collection without the size cut-off: what the walk would
collect if it ran to the end of the trace. -/
def collectAll : List (Option Node) → List (Option Node) → List (Option Node)
  | [], res => res
  | v :: vs, res =>
    collectAll vs (if sliceContainsMember res v then res else res ++ [v])

/-- Every entry of the position table is one of its own node's replica
positions (true of every state the mutations can build, since `add` writes
exactly the replica keys of its argument). -/
def entriesDerived (c : Consistent) : Prop :=
  ∀ p ∈ c.circle, ∃ i < c.NumberOfReplicas, p.1 = hashKey (elementKey p.2 i)

/-- The registered replica positions are pairwise collision-free: replica
keys of distinct members never hash to the same ring position. -/
def collisionFree (c : Consistent) : Prop :=
  ∀ v ∈ c.members, ∀ w ∈ c.members, ∀ i < c.NumberOfReplicas,
    ∀ j < c.NumberOfReplicas, hashKey (elementKey v i) = hashKey (elementKey w j) → v = w

/-- Every registered member owns all of its `NumberOfReplicas` replica
positions in the position table (the spec's documented membership/table
lock-step invariant; true of collision-free reachable states). -/
def ownsAllReplicas (c : Consistent) : Prop :=
  ∀ m ∈ c.members, ∀ i < c.NumberOfReplicas,
    mapLookup c.circle (hashKey (elementKey m i)) = some m

/-- Replica keys are pairwise collision-free across the current members
and a given list of handles: keys of distinct handles never coincide. -/
def collisionFreeWith (c : Consistent) (elems : List Node) : Prop :=
  ∀ v ∈ c.members ++ elems, ∀ w ∈ c.members ++ elems, ∀ i < c.NumberOfReplicas,
    ∀ j < c.NumberOfReplicas, hashKey (elementKey v i) = hashKey (elementKey w j) → v = w

instance (m : List (Nat × Node)) : Decidable (keysNodup m) := by
  unfold keysNodup; infer_instance

instance (c : Consistent) : Decidable (cacheInv c) := by
  unfold cacheInv; infer_instance

instance (c : Consistent) : Decidable (WF c) := by
  unfold WF; infer_instance

instance (c : Consistent) : Decidable (entriesDerived c) := by
  unfold entriesDerived; infer_instance

instance (c : Consistent) : Decidable (collisionFree c) := by
  unfold collisionFree; infer_instance

instance (c : Consistent) : Decidable (ownsAllReplicas c) := by
  unfold ownsAllReplicas; infer_instance

instance (c : Consistent) (elems : List Node) : Decidable (collisionFreeWith c elems) := by
  unfold collisionFreeWith; infer_instance

end Consistent

/-! ## Concrete states used as witnesses and counterexamples -/

/-- A concrete node handle named `"A"`. -/
def nodeA : Node := ⟨0, [65]⟩

/-- A concrete node handle named `"B"`. -/
def nodeB : Node := ⟨1, [66]⟩

/-- A concrete node handle named `"C"`, never registered in `ringAB`. -/
def nodeC : Node := ⟨2, [67]⟩

/-- A second, distinct handle that also reports the name `"A"`: its replica
keys therefore hash exactly onto `nodeA`'s positions. -/
def nodeA2 : Node := ⟨3, [65]⟩

/-- A fresh ring with `NumberOfReplicas` set to 1 before any `Add`, as the
package documentation instructs. -/
def ringR1 : Consistent := { Consistent.new with NumberOfReplicas := 1 }

/-- The ring after `Add(nodeA); Add(nodeB)`.  Its replica positions are
`crc32 "0A" = 2672055562` (nodeA) and `crc32 "0B" = 105710768` (nodeB). -/
def ringAB : Consistent := (ringR1.Add nodeA).Add nodeB

/-- The ring after `Add(nodeA); Add(nodeB); Add(nodeC)`; the extra position
is `crc32 "0C" = 1900688422` (nodeC). -/
def ringABC : Consistent := ringAB.Add nodeC

/-! ## Theorems -/

open Consistent

/-- C10: `hashKey` returns the CRC32 (IEEE) checksum of exactly the key's
bytes: the short-string branch, which copies the key into a zeroed 64-byte
scratch buffer and checksums its first `len(key)` bytes, computes the same
value as checksumming the key directly, so both branches are equivalent. -/
theorem c10_hashKey_eq_crc32 (key : List Nat) : hashKey key = crc32 key := by
  unfold hashKey
  split
  · show crc32 (List.take key.length (key ++ List.replicate (64 - key.length) 0)) = crc32 key
    rw [List.take_left]
  · rfl

/-- C2: the code violates the count invariant.  Starting from a fresh ring
(one replica), calling `Add(nodeA)` twice leaves `count = 2` while the
membership set has exactly one entry: `add` increments `count`
unconditionally, so the count is double-incremented, contradicting the
claimed invariant (and the spec's own correctness requirement). -/
theorem c2_double_add_count_bug :
    ((ringR1.Add nodeA).Add nodeA).count = 2 ∧
    ((ringR1.Add nodeA).Add nodeA).members.length = 1 := by decide

/-- C3: the code violates the remove-non-member frame property.  `nodeC` is
not a member of `ringAB`, and `Remove(nodeC)` indeed leaves the position
table and membership set unchanged, but it decrements `count` from 2 to 1
unconditionally; as a consequence `GetTwo` on the very same two-member ring
stops returning a second node (it short-circuits on `count == 1`), so the
observable query results change. -/
theorem c3_remove_nonmember_bug :
    nodeC ∉ ringAB.members ∧
    (ringAB.Remove nodeC).circle = ringAB.circle ∧
    (ringAB.Remove nodeC).members = ringAB.members ∧
    ringAB.count = 2 ∧ (ringAB.Remove nodeC).count = 1 ∧
    ringAB.GetTwo [48] = .ok (some nodeB, some nodeA) ∧
    (ringAB.Remove nodeC).GetTwo [48] = .ok (some nodeB, none) := by decide

/-- C1, counterexample: the search is strict, not inclusive.  On `ringAB`
the key `"0A"` hashes exactly onto `nodeA`'s occupied position, so the first
position ≥ the hash is that very position, owned by `nodeA` — but `Get`
returns `nodeB`, the owner of the next position on the wrapping walk.  This
refutes the claim's "greater than or equal" reading (in particular its
parenthetical about exact hits). -/
theorem c1_counterexample :
    hashKey [48, 65] ∈ ringAB.sortedHashes ∧
    mapLookup ringAB.circle (specMinAtLeast ringAB.sortedHashes (hashKey [48, 65])) = some nodeA ∧
    ringAB.Get [48, 65] = .ok (some nodeB) ∧
    nodeA ≠ nodeB := by decide

/-- C5, counterexample: `GetN(key, 0)` on a non-empty ring does not return
an empty list.  On the two-member `ringAB` with a key that lands the search
on index 1, the initial append already makes the result non-empty, the
`len(res) == n` break can never fire for `n = 0`, and the walk terminates
only by returning to the start index — after collecting every member. -/
theorem c5_counterexample :
    ringAB.GetN [48, 66] 0 = .ok [some nodeA, some nodeB] := by decide

namespace Consistent

theorem members_add (c : Consistent) (el : Node) :
    (c.add el).members = memInsert c.members el := rfl

theorem members_remove (c : Consistent) (el : Node) :
    (c.remove el).members = c.members.filter (fun x => x ≠ el) := rfl

theorem mem_memInsert (m : List Node) (el x : Node) :
    x ∈ memInsert m el ↔ x = el ∨ x ∈ m := by
  unfold memInsert
  split
  · next h =>
    have hel : el ∈ m := by simpa using h
    constructor
    · exact Or.inr
    · rintro (rfl | hx)
      · exact hel
      · exact hx
  · simp [or_comm]

theorem set_phase1_mem (elems : List Node) :
    ∀ (snapshot : List Node) (acc : Consistent) (x : Node),
      (x ∈ (snapshot.foldl
          (fun acc k => if elems.contains k then acc else acc.remove k) acc).members ↔
        x ∈ acc.members ∧ ¬(x ∈ snapshot ∧ x ∉ elems)) := by
  intro snapshot
  induction snapshot with
  | nil => intro acc x; simp
  | cons k rest ih =>
    intro acc x
    simp only [List.foldl_cons]
    rw [ih]
    by_cases hk : elems.contains k
    · have hk' : k ∈ elems := by simpa using hk
      simp only [if_pos hk]
      by_cases hxk : x = k
      · subst hxk
        constructor
        · rintro ⟨h1, h2⟩
          exact ⟨h1, by tauto⟩
        · rintro ⟨h1, _⟩
          exact ⟨h1, by tauto⟩
      · constructor
        · rintro ⟨h1, h2⟩
          refine ⟨h1, ?_⟩
          rintro ⟨hmem, hnel⟩
          rcases List.mem_cons.mp hmem with h | h
          · exact hxk h
          · exact h2 ⟨h, hnel⟩
        · rintro ⟨h1, h2⟩
          refine ⟨h1, ?_⟩
          rintro ⟨hmem, hnel⟩
          exact h2 ⟨List.mem_cons_of_mem _ hmem, hnel⟩
    · have hk' : k ∉ elems := by simpa using hk
      simp only [if_neg hk]
      rw [members_remove]
      simp only [List.mem_filter, decide_eq_true_eq]
      by_cases hxk : x = k
      · subst hxk
        constructor
        · rintro ⟨⟨_, hne⟩, _⟩
          exact absurd rfl hne
        · rintro ⟨_, h2⟩
          exact absurd ⟨List.mem_cons_self _ _, hk'⟩ h2
      · constructor
        · rintro ⟨⟨h1, _⟩, h2⟩
          refine ⟨h1, ?_⟩
          rintro ⟨hmem, hnel⟩
          rcases List.mem_cons.mp hmem with h | h
          · exact hxk h
          · exact h2 ⟨h, hnel⟩
        · rintro ⟨h1, h2⟩
          exact ⟨⟨h1, hxk⟩, fun ⟨hmem, hnel⟩ => h2 ⟨List.mem_cons_of_mem _ hmem, hnel⟩⟩

theorem set_phase2_mem :
    ∀ (vs : List Node) (acc : Consistent) (x : Node),
      (x ∈ (vs.foldl
          (fun acc v => if acc.members.contains v then acc else acc.add v) acc).members ↔
        x ∈ acc.members ∨ x ∈ vs) := by
  intro vs
  induction vs with
  | nil => intro acc x; simp
  | cons v rest ih =>
    intro acc x
    simp only [List.foldl_cons]
    rw [ih]
    by_cases hv : acc.members.contains v
    · have hv' : v ∈ acc.members := by simpa using hv
      simp only [if_pos hv]
      constructor
      · rintro (h | h)
        · exact Or.inl h
        · exact Or.inr (List.mem_cons_of_mem _ h)
      · rintro (h | h)
        · exact Or.inl h
        · rcases List.mem_cons.mp h with rfl | h
          · exact Or.inl hv'
          · exact Or.inr h
    · simp only [if_neg hv]
      rw [members_add, mem_memInsert]
      constructor
      · rintro ((rfl | h) | h)
        · exact Or.inr (List.mem_cons_self _ _)
        · exact Or.inl h
        · exact Or.inr (List.mem_cons_of_mem _ h)
      · rintro (h | h)
        · exact Or.inl (Or.inr h)
        · rcases List.mem_cons.mp h with rfl | h
          · exact Or.inl (Or.inl rfl)
          · exact Or.inr h

end Consistent

/-- After `Set(nodes)` the membership set is exactly the set of handles in
the list: members not listed are removed, listed non-members are added,
and handles present on both sides stay members. -/
theorem set_members_exact (c : Consistent) (elems : List Node) (x : Node) :
    x ∈ (c.Set elems).members ↔ x ∈ elems := by
  unfold Consistent.Set
  rw [Consistent.set_phase2_mem, Consistent.set_phase1_mem]
  constructor
  · rintro (⟨_, h2⟩ | h)
    · by_contra hne
      exact h2 ⟨‹_›, hne⟩
    · exact h
  · exact Or.inr

namespace Consistent

theorem keysNodup_mapInsert {m : List (Nat × Node)} (h : keysNodup m) (k : Nat) (v : Node) :
    keysNodup (mapInsert m k v) := by
  unfold keysNodup mapInsert at *
  simp only [List.map_cons, List.nodup_cons]
  constructor
  · intro hk
    rcases List.mem_map.mp hk with ⟨p, hp, hfst⟩
    have := (List.mem_filter.mp hp).2
    simp only [decide_eq_true_eq] at this
    exact this hfst
  · exact h.sublist ((List.filter_sublist m).map Prod.fst)

theorem keysNodup_mapDelete {m : List (Nat × Node)} (h : keysNodup m) (k : Nat) :
    keysNodup (mapDelete m k) := by
  unfold keysNodup mapDelete at *
  exact h.sublist ((List.filter_sublist m).map Prod.fst)

theorem keysNodup_foldInsert {β : Type} (g : β → Nat) (v : Node) :
    ∀ (l : List β) (m : List (Nat × Node)), keysNodup m →
      keysNodup (l.foldl (fun m i => mapInsert m (g i) v) m) := by
  intro l
  induction l with
  | nil => intro m h; exact h
  | cons a rest ih =>
    intro m h
    exact ih _ (keysNodup_mapInsert h _ _)

theorem keysNodup_foldDelete {β : Type} (g : β → Nat) :
    ∀ (l : List β) (m : List (Nat × Node)), keysNodup m →
      keysNodup (l.foldl (fun m i => mapDelete m (g i)) m) := by
  intro l
  induction l with
  | nil => intro m h; exact h
  | cons a rest ih =>
    intro m h
    exact ih _ (keysNodup_mapDelete h _)

theorem cacheInv_updateSortedHashes (c : Consistent) (h : keysNodup c.circle) :
    cacheInv (updateSortedHashes c) ∧ (updateSortedHashes c).sortedHashes.Nodup := by
  unfold cacheInv updateSortedHashes
  have hperm := List.perm_insertionSort (α := Nat) (· ≤ ·) (c.circle.map Prod.fst)
  have hsortedle := List.sorted_insertionSort (α := Nat) (· ≤ ·) (c.circle.map Prod.fst)
  have hnodup : ((c.circle.map Prod.fst).insertionSort (· ≤ ·)).Nodup :=
    hperm.nodup_iff.mpr h
  refine ⟨⟨?_, ?_, ?_⟩, hnodup⟩
  · exact (List.Pairwise.and hsortedle hnodup).imp (fun hab => lt_of_le_of_ne hab.1 hab.2)
  · intro k hk; exact hperm.mem_iff.mp hk
  · intro k hk; exact hperm.mem_iff.mpr hk

theorem circle_add (c : Consistent) (el : Node) :
    (c.add el).circle = (List.range c.NumberOfReplicas).foldl
      (fun m i => mapInsert m (hashKey (elementKey el i)) el) c.circle := rfl

theorem circle_remove (c : Consistent) (el : Node) :
    (c.remove el).circle = (List.range c.NumberOfReplicas).foldl
      (fun m i => mapDelete m (hashKey (elementKey el i))) c.circle := rfl

theorem add_preserves (c : Consistent) (el : Node) (h : keysNodup c.circle) :
    keysNodup (c.add el).circle ∧ cacheInv (c.add el) ∧ (c.add el).sortedHashes.Nodup := by
  have hk : keysNodup (c.add el).circle := by
    rw [circle_add]
    exact keysNodup_foldInsert _ _ _ _ h
  have base := cacheInv_updateSortedHashes
    { c with
      circle := (List.range c.NumberOfReplicas).foldl
        (fun m i => mapInsert m (hashKey (elementKey el i)) el) c.circle,
      members := memInsert c.members el } hk
  exact ⟨hk, base.1, base.2⟩

theorem remove_preserves (c : Consistent) (el : Node) (h : keysNodup c.circle) :
    keysNodup (c.remove el).circle ∧ cacheInv (c.remove el) ∧
      (c.remove el).sortedHashes.Nodup := by
  have hk : keysNodup (c.remove el).circle := by
    rw [circle_remove]
    exact keysNodup_foldDelete _ _ _ h
  have base := cacheInv_updateSortedHashes
    { c with
      circle := (List.range c.NumberOfReplicas).foldl
        (fun m i => mapDelete m (hashKey (elementKey el i))) c.circle,
      members := c.members.filter (fun x => x ≠ el) } hk
  exact ⟨hk, base.1, base.2⟩

theorem set_preserves (c : Consistent) (elems : List Node)
    (h : keysNodup c.circle) (hc : cacheInv c ∧ c.sortedHashes.Nodup) :
    keysNodup (c.Set elems).circle ∧ cacheInv (c.Set elems) ∧
      (c.Set elems).sortedHashes.Nodup := by
  unfold Set
  have phase1 : ∀ (snap : List Node) (acc : Consistent),
      keysNodup acc.circle ∧ cacheInv acc ∧ acc.sortedHashes.Nodup →
      keysNodup ((snap.foldl
        (fun acc k => if elems.contains k then acc else acc.remove k) acc)).circle ∧
      cacheInv (snap.foldl
        (fun acc k => if elems.contains k then acc else acc.remove k) acc) ∧
      (snap.foldl
        (fun acc k => if elems.contains k then acc else acc.remove k) acc).sortedHashes.Nodup := by
    intro snap
    induction snap with
    | nil => intro acc hacc; exact hacc
    | cons a rest ih =>
      intro acc hacc
      simp only [List.foldl_cons]
      apply ih
      by_cases ha : elems.contains a
      · rw [if_pos ha]; exact hacc
      · simp only [if_neg ha]
        exact remove_preserves acc a hacc.1
  have phase2 : ∀ (vs : List Node) (acc : Consistent),
      keysNodup acc.circle ∧ cacheInv acc ∧ acc.sortedHashes.Nodup →
      keysNodup ((vs.foldl
        (fun acc v => if acc.members.contains v then acc else acc.add v) acc)).circle ∧
      cacheInv (vs.foldl
        (fun acc v => if acc.members.contains v then acc else acc.add v) acc) ∧
      (vs.foldl
        (fun acc v => if acc.members.contains v then acc else acc.add v) acc).sortedHashes.Nodup := by
    intro vs
    induction vs with
    | nil => intro acc hacc; exact hacc
    | cons a rest ih =>
      intro acc hacc
      simp only [List.foldl_cons]
      apply ih
      by_cases ha : acc.members.contains a
      · rw [if_pos ha]; exact hacc
      · simp only [if_neg ha]
        exact add_preserves acc a hacc.1
  exact phase2 _ _ (phase1 _ _ ⟨h, hc.1, hc.2⟩)

end Consistent

namespace Consistent

theorem find?_eq_some_get_findIdx {α : Type} (p : α → Bool) :
    ∀ (l : List α) (h : List.findIdx p l < l.length),
      l.find? p = some (l.get ⟨List.findIdx p l, h⟩) := by
  intro l
  induction l with
  | nil => intro h; simp at h
  | cons a t ih =>
    intro h
    by_cases hpa : p a
    · have h0 : List.findIdx p (a :: t) = 0 := by simp [List.findIdx_cons, hpa]
      have : (a :: t).get ⟨List.findIdx p (a :: t), h⟩ = a := by
        have : (⟨List.findIdx p (a :: t), h⟩ : Fin (a :: t).length) = ⟨0, by simp⟩ :=
          Fin.ext (by simp [h0])
        rw [this]; rfl
      rw [this, List.find?_cons_of_pos _ hpa]
    · have hidx : List.findIdx p (a :: t) = List.findIdx p t + 1 := by
        simp [List.findIdx_cons, hpa]
      have ht : List.findIdx p t < t.length := by
        rw [hidx] at h; simpa using h
      have hget : (a :: t).get ⟨List.findIdx p (a :: t), h⟩ = t.get ⟨List.findIdx p t, ht⟩ := by
        have : (⟨List.findIdx p (a :: t), h⟩ : Fin (a :: t).length) =
            (⟨List.findIdx p t + 1, by omega⟩ : Fin (a :: t).length) :=
          Fin.ext (by simp [hidx])
        rw [this]; rfl
      rw [hget, List.find?_cons_of_neg _ hpa]
      exact ih ht

theorem search_eq (c : Consistent) (key : Nat) :
    c.search key =
      if c.sortedHashes.length ≤ c.sortedHashes.findIdx (fun x => decide (key < x)) then 0
      else c.sortedHashes.findIdx (fun x => decide (key < x)) := rfl

theorem search_lt_length (c : Consistent) (key : Nat) (h : c.sortedHashes ≠ []) :
    c.search key < c.sortedHashes.length := by
  rw [search_eq]
  split
  · exact List.length_pos.mpr h
  · next hlt => omega

theorem getD_search_eq_minAbove (c : Consistent) (key : Nat) (h : c.sortedHashes ≠ []) :
    c.sortedHashes.getD (c.search key) 0 = minAbove c.sortedHashes key := by
  rw [search_eq]
  unfold minAbove
  by_cases hfull : c.sortedHashes.length ≤ c.sortedHashes.findIdx (fun x => decide (key < x))
  · rw [if_pos hfull]
    have hall : ∀ x ∈ c.sortedHashes, ¬(key < x) := by
      intro x hx
      have hidx : c.sortedHashes.findIdx (fun x => decide (key < x)) =
          c.sortedHashes.length :=
        le_antisymm (List.findIdx_le_length _) hfull
      have := List.findIdx_eq_length.mp hidx x hx
      simpa using this
    have hnone : c.sortedHashes.find? (fun x => decide (key < x)) = none := by
      rw [List.find?_eq_none]
      intro x hx
      simpa using hall x hx
    rw [hnone]
    simp only [Option.getD_none]
    cases hl : c.sortedHashes with
    | nil => exact absurd hl h
    | cons a t => simp
  · rw [if_neg hfull]
    push_neg at hfull
    rw [find?_eq_some_get_findIdx _ _ hfull]
    simp only [Option.getD_some]
    exact List.getD_eq_getElem _ _ hfull

theorem minAbove_mem (l : List Nat) (k : Nat) (h : l ≠ []) : minAbove l k ∈ l := by
  unfold minAbove
  cases hf : l.find? (fun x => decide (k < x)) with
  | some a =>
    simp only [Option.getD_some]
    exact List.mem_of_find?_eq_some hf
  | none =>
    simp only [Option.getD_none]
    cases hl : l with
    | nil => exact absurd hl h
    | cons a t => simp

theorem minAbove_above (l : List Nat) (k : Nat) (hs : l.Sorted (· < ·))
    (hex : ∃ q ∈ l, k < q) :
    k < minAbove l k ∧ ∀ q ∈ l, k < q → minAbove l k ≤ q := by
  obtain ⟨q0, hq0, hkq0⟩ := hex
  have hsome : (l.find? (fun x => decide (k < x))).isSome := by
    rw [List.find?_isSome]
    exact ⟨q0, hq0, by simpa using hkq0⟩
  obtain ⟨b, hb⟩ := Option.isSome_iff_exists.mp hsome
  have hbval : minAbove l k = b := by unfold minAbove; rw [hb]; rfl
  have hkb : k < b := by simpa using List.find?_some hb
  refine hbval ▸ ⟨hkb, ?_⟩
  intro q hq hkq
  rcases List.find?_eq_some.mp hb with ⟨_, as, bs, hl, hbefore⟩
  subst hl
  rcases List.mem_append.mp hq with hqas | hqbs
  · exact absurd (by simpa using hbefore q hqas) (by simpa using hkq)
  · rcases List.mem_cons.mp hqbs with rfl | hqbs
    · exact le_refl _
    · have hsorted : List.Sorted (· < ·) (b :: bs) :=
        hs.sublist (List.sublist_append_right as (b :: bs))
      exact le_of_lt (List.rel_of_sorted_cons hsorted q hqbs)

theorem minAbove_wrap (l : List Nat) (k : Nat) (hs : l.Sorted (· < ·)) (h : l ≠ [])
    (hall : ∀ q ∈ l, ¬(k < q)) :
    ∀ q ∈ l, minAbove l k ≤ q := by
  have hnone : l.find? (fun x => decide (k < x)) = none := by
    rw [List.find?_eq_none]
    intro x hx
    simpa using hall x hx
  intro q hq
  unfold minAbove
  rw [hnone]
  simp only [Option.getD_none]
  cases hl : l with
  | nil => exact absurd hl h
  | cons a t =>
    subst hl
    simp only [List.headD_cons]
    rcases List.mem_cons.mp hq with rfl | hqt
    · exact le_refl _
    · exact le_of_lt (List.rel_of_sorted_cons hs q hqt)

end Consistent

namespace Consistent

theorem mapLookup_isSome_iff (m : List (Nat × Node)) (k : Nat) :
    (mapLookup m k).isSome ↔ k ∈ m.map Prod.fst := by
  unfold mapLookup
  cases hfind : m.find? (fun p => decide (p.1 = k)) with
  | none =>
    simp only [Option.map_none', Option.isSome_none]
    constructor
    · intro hfalse; exact absurd hfalse (by simp)
    · intro hk
      rcases List.mem_map.mp hk with ⟨p, hp, hpk⟩
      have := List.find?_eq_none.mp hfind p hp
      simp [hpk] at this
  | some p =>
    simp only [Option.map_some', Option.isSome_some, true_iff]
    have hpk : p.1 = k := by simpa using List.find?_some hfind
    exact List.mem_map.mpr ⟨p, List.mem_of_find?_eq_some hfind, hpk⟩

theorem mem_of_mapLookup_eq_some {m : List (Nat × Node)} {k : Nat} {v : Node}
    (h : mapLookup m k = some v) : (k, v) ∈ m := by
  unfold mapLookup at h
  rcases Option.map_eq_some'.mp h with ⟨p, hp, hpv⟩
  have hpk : p.1 = k := by simpa using List.find?_some hp
  have hpm := List.mem_of_find?_eq_some hp
  have : p = (k, v) := by
    cases p
    simp_all
  exact this ▸ hpm

theorem mapLookup_eq_some_of_mem {m : List (Nat × Node)} {k : Nat} {v : Node}
    (hn : keysNodup m) (h : (k, v) ∈ m) : mapLookup m k = some v := by
  have hsome : (mapLookup m k).isSome := by
    rw [mapLookup_isSome_iff]
    exact List.mem_map.mpr ⟨(k, v), h, rfl⟩
  obtain ⟨w, hw⟩ := Option.isSome_iff_exists.mp hsome
  have hmem := mem_of_mapLookup_eq_some hw
  have hkv : (k, v) = (k, w) :=
    List.inj_on_of_nodup_map hn h hmem rfl
  have hvw : v = w := by simpa using congrArg Prod.snd hkv
  rw [hw, hvw]

theorem sortedHashes_ne_nil (c : Consistent) (hw : WF c) (h : c.circle ≠ []) :
    c.sortedHashes ≠ [] := by
  obtain ⟨-, ⟨-, -, hkeys⟩, -⟩ := hw
  cases hc : c.circle with
  | nil => exact absurd hc h
  | cons p t =>
    have : p.1 ∈ c.circle.map Prod.fst := by rw [hc]; simp
    have := hkeys _ this
    intro hnil
    rw [hnil] at this
    simp at this

theorem Get_eq_minAbove (c : Consistent) (name : List Nat) (hw : WF c)
    (h : c.circle ≠ []) :
    c.Get name = .ok (mapLookup c.circle (minAbove c.sortedHashes (hashKey name))) := by
  unfold Get
  rw [if_neg (by simpa using h)]
  show Except.ok (mapLookup c.circle (c.sortedHashes.getD (c.search (hashKey name)) 0)) = _
  rw [getD_search_eq_minAbove _ _ (sortedHashes_ne_nil c hw h)]

theorem Get_returns_member (c : Consistent) (name : List Nat) (hw : WF c)
    (h : c.circle ≠ []) :
    ∃ v, c.Get name = .ok (some v) ∧ v ∈ c.members ∧
      (minAbove c.sortedHashes (hashKey name), v) ∈ c.circle := by
  obtain ⟨hkn, ⟨hsorted, hsub, hkeys⟩, hvals, hmem, hnodup, hcount⟩ := hw
  have hne := sortedHashes_ne_nil c ⟨hkn, ⟨hsorted, hsub, hkeys⟩, hvals, hmem, hnodup, hcount⟩ h
  have hminmem : minAbove c.sortedHashes (hashKey name) ∈ c.circle.map Prod.fst :=
    hsub _ (minAbove_mem _ _ hne)
  have hsome : (mapLookup c.circle (minAbove c.sortedHashes (hashKey name))).isSome :=
    (mapLookup_isSome_iff _ _).mpr hminmem
  obtain ⟨v, hv⟩ := Option.isSome_iff_exists.mp hsome
  have hpair := mem_of_mapLookup_eq_some hv
  refine ⟨v, ?_, hvals _ hpair, hpair⟩
  rw [Get_eq_minAbove c name ⟨hkn, ⟨hsorted, hsub, hkeys⟩, hvals, hmem, hnodup, hcount⟩ h, hv]

end Consistent

/-- C1 (amended): for every well-formed non-empty ring state, `Get(key)`
returns the node stored at the first ring position strictly greater than
`hash(key)` in the ascending sorted cache, wrapping to the node at the
smallest position when `hash(key)` is greater than or equal to every
position (so a key hashing exactly onto an occupied position is owned by
the next position, not that one). -/
theorem c1_get_first_strictly_greater (c : Consistent) (name : List Nat)
    (hw : WF c) (h : c.circle ≠ []) :
    ∃ v, c.Get name = .ok (some v) ∧
      (minAbove c.sortedHashes (hashKey name), v) ∈ c.circle ∧
      minAbove c.sortedHashes (hashKey name) ∈ c.sortedHashes ∧
      ((∃ q ∈ c.sortedHashes, hashKey name < q) →
        hashKey name < minAbove c.sortedHashes (hashKey name) ∧
          ∀ q ∈ c.sortedHashes, hashKey name < q →
            minAbove c.sortedHashes (hashKey name) ≤ q) ∧
      ((∀ q ∈ c.sortedHashes, ¬(hashKey name < q)) →
        ∀ q ∈ c.sortedHashes, minAbove c.sortedHashes (hashKey name) ≤ q) := by
  obtain ⟨v, hget, hmem, hpair⟩ := Consistent.Get_returns_member c name hw h
  have hne := Consistent.sortedHashes_ne_nil c hw h
  refine ⟨v, hget, hpair, Consistent.minAbove_mem _ _ hne, ?_, ?_⟩
  · exact fun hex => Consistent.minAbove_above _ _ hw.2.1.1 hex
  · exact fun hall => Consistent.minAbove_wrap _ _ hw.2.1.1 hne hall

/-- C1, witness: the amended lookup theorem instantiated on the concrete
two-node ring and the key `"0"`. -/
theorem c1_witness :
    WF ringAB ∧ ringAB.circle ≠ [] ∧
    (∃ v, ringAB.Get [48] = .ok (some v) ∧
      (minAbove ringAB.sortedHashes (hashKey [48]), v) ∈ ringAB.circle ∧
      minAbove ringAB.sortedHashes (hashKey [48]) ∈ ringAB.sortedHashes ∧
      ((∃ q ∈ ringAB.sortedHashes, hashKey [48] < q) →
        hashKey [48] < minAbove ringAB.sortedHashes (hashKey [48]) ∧
          ∀ q ∈ ringAB.sortedHashes, hashKey [48] < q →
            minAbove ringAB.sortedHashes (hashKey [48]) ≤ q) ∧
      ((∀ q ∈ ringAB.sortedHashes, ¬(hashKey [48] < q)) →
        ∀ q ∈ ringAB.sortedHashes, minAbove ringAB.sortedHashes (hashKey [48]) ≤ q)) :=
  ⟨by decide, by decide, c1_get_first_strictly_greater ringAB [48] (by decide) (by decide)⟩

/-- C4: on a well-formed ring, `Get`, `GetTwo` and `GetN` fail with the
empty-ring error exactly when no node is registered (equivalently, when the
position table is empty), and on a non-empty ring `Get` always returns a
currently registered member. -/
theorem c4_empty_ring_errors (c : Consistent) (name : List Nat) (n : Nat) (hw : WF c) :
    (c.members = [] ↔ c.circle = []) ∧
    (c.Get name = .error .emptyCircle ↔ c.members = []) ∧
    (c.GetTwo name = .error .emptyCircle ↔ c.members = []) ∧
    (c.GetN name n = .error .emptyCircle ↔ c.members = []) ∧
    (c.members ≠ [] → ∃ v, c.Get name = .ok (some v) ∧ v ∈ c.members) := by
  obtain ⟨hkn, hci, hvals, hmem, hnodup, hcount⟩ := hw
  have hiff : c.members = [] ↔ c.circle = [] := by
    constructor
    · intro hm
      cases hc : c.circle with
      | nil => rfl
      | cons p t =>
        have : p.2 ∈ c.members := hvals p (by rw [hc]; simp)
        rw [hm] at this
        simp at this
    · intro hc
      cases hm : c.members with
      | nil => rfl
      | cons m t =>
        obtain ⟨p, hp, -⟩ := hmem m (by rw [hm]; simp)
        rw [hc] at hp
        simp at hp
  refine ⟨hiff, ?_, ?_, ?_, ?_⟩
  · rw [hiff]
    constructor
    · intro herr
      by_contra hc
      rw [Consistent.Get_eq_minAbove c name ⟨hkn, hci, hvals, hmem, hnodup, hcount⟩ hc] at herr
      exact Except.noConfusion herr
    · intro hc
      unfold Consistent.Get
      rw [if_pos (by simpa using hc)]
  · rw [hiff]
    constructor
    · intro herr
      by_contra hc
      unfold Consistent.GetTwo at herr
      rw [if_neg (by simpa using hc)] at herr
      dsimp only at herr
      split at herr
      · exact Except.noConfusion herr
      · exact Except.noConfusion herr
    · intro hc
      unfold Consistent.GetTwo
      rw [if_pos (by simpa using hc)]
  · rw [hiff]
    constructor
    · intro herr
      by_contra hc
      unfold Consistent.GetN at herr
      rw [if_neg (by simpa using hc)] at herr
      dsimp only at herr
      split at herr
      · split at herr
        · exact Except.noConfusion herr
        · exact Except.noConfusion herr
      · split at herr
        · exact Except.noConfusion herr
        · exact Except.noConfusion herr
    · intro hc
      unfold Consistent.GetN
      rw [if_pos (by simpa using hc)]
  · intro hm
    obtain ⟨v, hget, hv, -⟩ := Consistent.Get_returns_member c name
      ⟨hkn, hci, hvals, hmem, hnodup, hcount⟩ (fun hc => hm (hiff.mpr hc))
    exact ⟨v, hget, hv⟩

/-- C4, witness: the error/containment theorem instantiated on the concrete
two-node ring, key `"0"`, and `n = 2`. -/
theorem c4_witness :
    WF ringAB ∧
    ((ringAB.members = [] ↔ ringAB.circle = []) ∧
     (ringAB.Get [48] = .error .emptyCircle ↔ ringAB.members = []) ∧
     (ringAB.GetTwo [48] = .error .emptyCircle ↔ ringAB.members = []) ∧
     (ringAB.GetN [48] 2 = .error .emptyCircle ↔ ringAB.members = []) ∧
     (ringAB.members ≠ [] → ∃ v, ringAB.Get [48] = .ok (some v) ∧ v ∈ ringAB.members)) :=
  ⟨by decide, c4_empty_ring_errors ringAB [48] 2 (by decide)⟩

/-- C9: after `Add`, `Remove` and (given that it held before, since `Set`
may perform no mutation at all) after `Set`, the sorted position cache is
strictly ascending — hence duplicate-free — and contains exactly the keys
of the position table. -/
theorem c9_sorted_cache_sync (c : Consistent) (el : Node) (elems : List Node)
    (h : keysNodup c.circle) :
    (cacheInv (c.Add el) ∧ (c.Add el).sortedHashes.Nodup) ∧
    (cacheInv (c.Remove el) ∧ (c.Remove el).sortedHashes.Nodup) ∧
    ((cacheInv c ∧ c.sortedHashes.Nodup) →
      cacheInv (c.Set elems) ∧ (c.Set elems).sortedHashes.Nodup) := by
  refine ⟨?_, ?_, ?_⟩
  · have := Consistent.add_preserves c el h
    exact ⟨this.2.1, this.2.2⟩
  · have := Consistent.remove_preserves c el h
    exact ⟨this.2.1, this.2.2⟩
  · intro hc
    have := Consistent.set_preserves c elems h hc
    exact ⟨this.2.1, this.2.2⟩

/-- C9, witness: the cache-synchronisation theorem instantiated on the
concrete two-node ring, adding or removing `nodeC` and setting `[nodeA]`. -/
theorem c9_witness :
    keysNodup ringAB.circle ∧
    ((cacheInv (ringAB.Add nodeC) ∧ (ringAB.Add nodeC).sortedHashes.Nodup) ∧
     (cacheInv (ringAB.Remove nodeC) ∧ (ringAB.Remove nodeC).sortedHashes.Nodup) ∧
     ((cacheInv ringAB ∧ ringAB.sortedHashes.Nodup) →
       cacheInv (ringAB.Set [nodeA]) ∧ (ringAB.Set [nodeA]).sortedHashes.Nodup)) :=
  ⟨by decide, c9_sorted_cache_sync ringAB nodeC [nodeA] (by decide)⟩

namespace Consistent

theorem getTwoLoop_eq_walkBreak (c : Consistent) (a : Option Node) (start : Nat) :
    ∀ (fuel i : Nat) (b : Option Node),
      getTwoLoop c a start fuel i b = walkBreak a b (walkVals c start fuel i) := by
  intro fuel
  induction fuel with
  | zero => intro i b; rfl
  | succ fuel ih =>
    intro i b
    unfold getTwoLoop walkVals
    by_cases hi : i = start
    · rw [if_pos hi, if_pos hi]; rfl
    · rw [if_neg hi, if_neg hi]
      dsimp only
      set i' := if c.sortedHashes.length ≤ i then 0 else i with hi'
      set b' := mapLookup c.circle (c.sortedHashes.getD i' 0) with hb'
      by_cases hba : b' = a
      · rw [if_neg (by simp [hba])]
        rw [ih (i' + 1) b']
        unfold walkBreak
        rw [List.find?_cons_of_neg _ (by simp [hba])]
        cases hfind : (walkVals c start fuel (i' + 1)).find? (fun v => v ≠ a) with
        | some w => rfl
        | none =>
          cases hvs : walkVals c start fuel (i' + 1) with
          | nil => rfl
          | cons w ws =>
            obtain ⟨x, hx⟩ := Option.isSome_iff_exists.mp
              ((List.getLast?_isSome).mpr (List.cons_ne_nil w ws))
            show (w :: ws).getLast?.getD b' = (w :: ws).getLast?.getD b
            rw [hx]
            rfl
      · rw [if_pos (by simp [hba])]
        unfold walkBreak
        rw [List.find?_cons_of_pos _ (by simp [hba])]

theorem getNLoop_eq_collectVals (c : Consistent) (n : Nat) (start : Nat) :
    ∀ (fuel i : Nat) (res : List (Option Node)),
      getNLoop c n start fuel i res = collectVals n (walkVals c start fuel i) res := by
  intro fuel
  induction fuel with
  | zero => intro i res; rfl
  | succ fuel ih =>
    intro i res
    unfold getNLoop walkVals
    by_cases hi : i = start
    · rw [if_pos hi, if_pos hi]; rfl
    · rw [if_neg hi, if_neg hi]
      dsimp only
      unfold collectVals
      set i' := if c.sortedHashes.length ≤ i then 0 else i with hi'
      set v := mapLookup c.circle (c.sortedHashes.getD i' 0) with hv
      set res' := if sliceContainsMember res v then res else res ++ [v] with hres'
      by_cases hlen : res'.length = n
      · rw [if_pos hlen, if_pos hlen]
      · rw [if_neg hlen, if_neg hlen]
        exact ih (i' + 1) res'

end Consistent

namespace Consistent

theorem sliceContainsMember_iff (s : List (Option Node)) (v : Option Node) :
    sliceContainsMember s v = true ↔ v ∈ s := by
  unfold sliceContainsMember
  rw [List.any_eq_true]
  constructor
  · rintro ⟨x, hx, hxy⟩
    have : x = v := by simpa using hxy
    exact this ▸ hx
  · intro hv
    exact ⟨v, hv, by simp⟩

theorem collectAll_nil (res : List (Option Node)) : collectAll [] res = res := rfl

theorem collectAll_cons (v : Option Node) (vs res : List (Option Node)) :
    collectAll (v :: vs) res =
      collectAll vs (if sliceContainsMember res v then res else res ++ [v]) := rfl

theorem collectAll_take : ∀ (vs res : List (Option Node)),
    (collectAll vs res).take res.length = res := by
  intro vs
  induction vs with
  | nil => intro res; rw [collectAll_nil]; simp
  | cons v vs ih =>
    intro res
    rw [collectAll_cons]
    by_cases hv : sliceContainsMember res v
    · rw [if_pos hv]; exact ih res
    · rw [if_neg hv]
      calc (collectAll vs (res ++ [v])).take res.length
          = ((collectAll vs (res ++ [v])).take (res ++ [v]).length).take res.length := by
            rw [List.take_take]
            congr 1
            simp only [List.length_append, List.length_singleton]
            omega
        _ = (res ++ [v]).take res.length := by rw [ih (res ++ [v])]
        _ = res := List.take_left res [v]

theorem mem_collectAll : ∀ (vs res : List (Option Node)) (x : Option Node),
    x ∈ collectAll vs res ↔ x ∈ res ∨ x ∈ vs := by
  intro vs
  induction vs with
  | nil => intro res x; rw [collectAll_nil]; simp
  | cons v vs ih =>
    intro res x
    rw [collectAll_cons]
    by_cases hv : sliceContainsMember res v
    · rw [if_pos hv, ih]
      have hvres : v ∈ res := (sliceContainsMember_iff _ _).mp hv
      constructor
      · rintro (h | h)
        · exact Or.inl h
        · exact Or.inr (List.mem_cons_of_mem _ h)
      · rintro (h | h)
        · exact Or.inl h
        · rcases List.mem_cons.mp h with rfl | h
          · exact Or.inl hvres
          · exact Or.inr h
    · rw [if_neg hv, ih]
      simp only [List.mem_append, List.mem_singleton, List.mem_cons]
      tauto

theorem collectAll_append (vs ws res : List (Option Node)) :
    collectAll (vs ++ ws) res = collectAll ws (collectAll vs res) := by
  induction vs generalizing res with
  | nil => rfl
  | cons v vs ih =>
    rw [List.cons_append, collectAll_cons, collectAll_cons]
    exact ih _

theorem collectAll_no_new : ∀ (ws res : List (Option Node)),
    (∀ w ∈ ws, w ∈ res) → collectAll ws res = res := by
  intro ws
  induction ws with
  | nil => intro res _; rfl
  | cons w ws ih =>
    intro res hsub
    rw [collectAll_cons]
    rw [if_pos ((sliceContainsMember_iff _ _).mpr (hsub w (List.mem_cons_self _ _)))]
    exact ih res (fun x hx => hsub x (List.mem_cons_of_mem _ hx))

theorem collectAll_nodup : ∀ (vs res : List (Option Node)),
    res.Nodup → (collectAll vs res).Nodup := by
  intro vs
  induction vs with
  | nil => intro res h; exact h
  | cons v vs ih =>
    intro res h
    rw [collectAll_cons]
    by_cases hv : sliceContainsMember res v
    · rw [if_pos hv]; exact ih res h
    · rw [if_neg hv]
      refine ih _ ?_
      rw [List.nodup_append]
      refine ⟨h, List.nodup_singleton v, ?_⟩
      intro x hx
      simp only [List.mem_singleton]
      intro hxv
      subst hxv
      exact hv ((sliceContainsMember_iff res x).mpr hx)

theorem firstDedup_nil : firstDedup [] = [] := by rw [firstDedup]

theorem firstDedup_cons (x : Option Node) (xs : List (Option Node)) :
    firstDedup (x :: xs) = x :: firstDedup (xs.filter (fun y => y ≠ x)) := by
  rw [firstDedup]

theorem mem_firstDedup : ∀ (l : List (Option Node)) (x : Option Node),
    x ∈ firstDedup l ↔ x ∈ l := by
  intro l
  induction l using firstDedup.induct with
  | case1 => intro x; rw [firstDedup_nil]
  | case2 a t ih =>
    intro x
    rw [firstDedup_cons, List.mem_cons, List.mem_cons]
    rw [ih x, List.mem_filter]
    by_cases hxa : x = a
    · simp [hxa]
    · simp [hxa]

theorem firstDedup_nodup : ∀ (l : List (Option Node)), (firstDedup l).Nodup := by
  intro l
  induction l using firstDedup.induct with
  | case1 => rw [firstDedup_nil]; exact List.nodup_nil
  | case2 a t ih =>
    rw [firstDedup_cons, List.nodup_cons]
    refine ⟨?_, ih⟩
    rw [mem_firstDedup, List.mem_filter]
    rintro ⟨-, hne⟩
    simp at hne

theorem collectAll_eq_dedup : ∀ (vs res : List (Option Node)),
    collectAll vs res = res ++ firstDedup (vs.filter (fun v => !sliceContainsMember res v)) := by
  intro vs
  induction vs with
  | nil =>
    intro res
    rw [collectAll_nil, List.filter_nil, firstDedup_nil, List.append_nil]
  | cons v vs ih =>
    intro res
    rw [collectAll_cons]
    by_cases hv : sliceContainsMember res v
    · rw [if_pos hv, ih res, List.filter_cons, if_neg (by simp [hv])]
    · have hfil : vs.filter (fun w => !sliceContainsMember (res ++ [v]) w)
          = (vs.filter (fun w => !sliceContainsMember res w)).filter (fun w => w ≠ v) := by
        rw [List.filter_filter]
        apply List.filter_congr
        intro x hx
        show (!sliceContainsMember (res ++ [v]) x) = (decide (x ≠ v) && !sliceContainsMember res x)
        unfold sliceContainsMember
        simp only [List.any_append, List.any_cons, List.any_nil, Bool.or_false, Bool.not_or]
        rw [Bool.and_comm]
        simp [eq_comm]
      rw [if_neg hv, ih (res ++ [v]), hfil, List.filter_cons, if_pos (by simp [hv]),
        firstDedup_cons]
      simp [List.append_assoc]

end Consistent

namespace Consistent

theorem collectVals_nil (n : Nat) (res : List (Option Node)) :
    collectVals n [] res = res := rfl

theorem collectVals_cons (n : Nat) (v : Option Node) (vs res : List (Option Node)) :
    collectVals n (v :: vs) res =
      (let res' := if sliceContainsMember res v then res else res ++ [v]
       if res'.length = n then res' else collectVals n vs res') := rfl

theorem collectVals_eq_take (n : Nat) : ∀ (vs res : List (Option Node)),
    res.length < n → n ≤ (collectAll vs res).length →
    collectVals n vs res = (collectAll vs res).take n := by
  intro vs
  induction vs with
  | nil =>
    intro res h1 h2
    rw [collectAll_nil] at h2
    omega
  | cons v vs ih =>
    intro res h1 h2
    rw [collectVals_cons, collectAll_cons]
    rw [collectAll_cons] at h2
    dsimp only
    set res' := if sliceContainsMember res v then res else res ++ [v] with hres'
    have hlenres' : res'.length ≤ res.length + 1 := by
      rw [hres']
      split
      · omega
      · simp
    by_cases hn : res'.length = n
    · rw [if_pos hn]
      rw [← hn]
      exact (collectAll_take vs res').symm
    · rw [if_neg hn]
      exact ih res' (by omega) h2

end Consistent

namespace Consistent

theorem walkVals_zero_fuel (c : Consistent) (start i : Nat) :
    walkVals c start 0 i = [] := rfl

theorem walkVals_succ (c : Consistent) (start fuel i : Nat) :
    walkVals c start (fuel + 1) i =
      (if i = start then []
       else
        (let i' := if c.sortedHashes.length ≤ i then 0 else i
         mapLookup c.circle (c.sortedHashes.getD i' 0) :: walkVals c start fuel (i' + 1))) := rfl

theorem walkVals_below (c : Consistent) (start : Nat) (hs : start ≤ c.sortedHashes.length) :
    ∀ (fuel i : Nat), i ≤ start → start - i ≤ fuel →
      walkVals c start fuel i =
        (List.range' i (start - i)).map
          (fun j => mapLookup c.circle (c.sortedHashes.getD j 0)) := by
  intro fuel
  induction fuel with
  | zero =>
    intro i h1 h2
    have : start = i := by omega
    subst this
    rw [walkVals_zero_fuel]
    simp
  | succ fuel ih =>
    intro i h1 h2
    rw [walkVals_succ]
    by_cases hi : i = start
    · rw [if_pos hi]
      subst hi
      simp
    · rw [if_neg hi]
      have hilt : i < start := by omega
      have hwrap : ¬(c.sortedHashes.length ≤ i) := by omega
      dsimp only
      rw [if_neg hwrap]
      rw [ih (i + 1) (by omega) (by omega)]
      have : start - i = (start - (i + 1)) + 1 := by omega
      rw [this, List.range'_succ, List.map_cons]

theorem walkVals_above (c : Consistent) (start : Nat) (h1 : 1 ≤ start)
    (hs : start < c.sortedHashes.length) :
    ∀ (fuel i : Nat), start < i → i ≤ c.sortedHashes.length →
      c.sortedHashes.length - i + start ≤ fuel →
      walkVals c start fuel i =
        ((List.range' i (c.sortedHashes.length - i)) ++ List.range' 0 start).map
          (fun j => mapLookup c.circle (c.sortedHashes.getD j 0)) := by
  intro fuel
  induction fuel with
  | zero =>
    intro i hi1 hi2 hfuel
    omega
  | succ fuel ih =>
    intro i hi1 hi2 hfuel
    rw [walkVals_succ, if_neg (by omega)]
    dsimp only
    by_cases hlen : c.sortedHashes.length ≤ i
    · have hieq : i = c.sortedHashes.length := by omega
      rw [if_pos hlen]
      subst hieq
      rw [walkVals_below c start (by omega) fuel 1 h1 (by omega)]
      have hr0 : List.range' 0 start = 0 :: List.range' 1 (start - 1) := by
        have : start = (start - 1) + 1 := by omega
        rw [this, List.range'_succ]
        congr 1
      rw [Nat.sub_self, List.range'_zero, List.nil_append, hr0, List.map_cons]
    · rw [if_neg hlen]
      rw [ih (i + 1) (by omega) (by omega) (by omega)]
      have : c.sortedHashes.length - i = (c.sortedHashes.length - (i + 1)) + 1 := by omega
      rw [this, List.range'_succ, List.cons_append, List.map_cons]

theorem walkVals_zero_start (c : Consistent) :
    ∀ (fuel i : Nat), 1 ≤ i → i ≤ c.sortedHashes.length →
      c.sortedHashes.length - i + 1 ≤ fuel →
      walkVals c 0 fuel i =
        ((List.range' i (c.sortedHashes.length - i)).map
          (fun j => mapLookup c.circle (c.sortedHashes.getD j 0))) ++
        mapLookup c.circle (c.sortedHashes.getD 0 0) ::
          walkVals c 0 (fuel - (c.sortedHashes.length - i + 1)) 1 := by
  intro fuel
  induction fuel with
  | zero =>
    intro i h1 h2 hfuel
    omega
  | succ fuel ih =>
    intro i h1 h2 hfuel
    rw [walkVals_succ, if_neg (by omega)]
    dsimp only
    by_cases hlen : c.sortedHashes.length ≤ i
    · have hieq : i = c.sortedHashes.length := by omega
      rw [if_pos hlen]
      subst hieq
      rw [Nat.sub_self, List.range'_zero, List.map_nil, List.nil_append]
      have hf : fuel + 1 - (0 + 1) = fuel := by omega
      rw [hf]
    · rw [if_neg hlen]
      rw [ih (i + 1) (by omega) (by omega) (by omega)]
      have hft : fuel - (c.sortedHashes.length - (i + 1) + 1) =
          fuel + 1 - (c.sortedHashes.length - i + 1) := by omega
      rw [hft]
      have : c.sortedHashes.length - i = (c.sortedHashes.length - (i + 1)) + 1 := by omega
      rw [this, List.range'_succ, List.map_cons, List.cons_append]

end Consistent

namespace Consistent

theorem map_getD_range' (l : List Nat) (g : Nat → Option Node) :
    ∀ (k s : Nat), s + k ≤ l.length →
      (List.range' s k).map (fun j => g (l.getD j 0)) = ((l.drop s).take k).map g := by
  intro k
  induction k with
  | zero => intro s h; simp
  | succ k ih =>
    intro s h
    have hs : s < l.length := by omega
    rw [List.range'_succ, List.map_cons, List.drop_eq_getElem_cons hs, List.take_succ_cons,
      List.map_cons, List.getD_eq_getElem l 0 hs]
    congr 1
    exact ih (s + 1) (by omega)

theorem sorted_length_eq (c : Consistent) (hw : WF c) :
    c.sortedHashes.length = c.circle.length := by
  obtain ⟨hkn, ⟨hsorted, hsub, hkeys⟩, -⟩ := hw
  have hperm : c.sortedHashes.Perm (c.circle.map Prod.fst) := by
    rw [List.perm_ext_iff_of_nodup (hsorted.nodup) hkn]
    intro a
    exact ⟨fun h => hsub a h, fun h => hkeys a h⟩
  have := hperm.length_eq
  rw [this, List.length_map]

theorem members_ne_nil (c : Consistent) (hw : WF c) (h : c.circle ≠ []) :
    c.members ≠ [] := by
  obtain ⟨-, -, hvals, -⟩ := hw
  cases hc : c.circle with
  | nil => exact absurd hc h
  | cons p t =>
    have : p.2 ∈ c.members := hvals p (by rw [hc]; simp)
    intro hm
    rw [hm] at this
    simp at this

theorem Get_ok_of_ne (c : Consistent) (name : List Nat) (h : c.circle ≠ []) :
    c.Get name = .ok (mapLookup c.circle (c.sortedHashes.getD (c.search (hashKey name)) 0)) := by
  unfold Get
  rw [if_neg (by simpa using h)]

theorem GetTwo_eq (c : Consistent) (name : List Nat) (h : c.circle ≠ []) :
    c.GetTwo name =
      (if c.count = 1 then
        .ok (mapLookup c.circle (c.sortedHashes.getD (c.search (hashKey name)) 0), none)
      else
        .ok (mapLookup c.circle (c.sortedHashes.getD (c.search (hashKey name)) 0),
          getTwoLoop c (mapLookup c.circle (c.sortedHashes.getD (c.search (hashKey name)) 0))
            (c.search (hashKey name)) (c.sortedHashes.length + 1)
            (c.search (hashKey name) + 1) none)) := by
  unfold GetTwo
  rw [if_neg (by simpa using h)]

theorem GetN_eq (c : Consistent) (name : List Nat) (n : Nat) (h : c.circle ≠ []) :
    c.GetN name n =
      (if 1 = (if c.count < (n : Int) then c.count.toNat else n) then
        .ok [mapLookup c.circle (c.sortedHashes.getD (c.search (hashKey name)) 0)]
      else
        .ok (getNLoop c (if c.count < (n : Int) then c.count.toNat else n)
          (c.search (hashKey name)) (c.sortedHashes.length + 1)
          (c.search (hashKey name) + 1)
          [mapLookup c.circle (c.sortedHashes.getD (c.search (hashKey name)) 0)])) := by
  unfold GetN
  rw [if_neg (by simpa using h)]
  rfl

end Consistent

namespace Consistent

theorem rot_eq_map_range (c : Consistent) (start : Nat)
    (hstart : start ≤ c.sortedHashes.length) :
    (c.sortedHashes.drop start ++ c.sortedHashes.take start).map (mapLookup c.circle) =
      (List.range' start (c.sortedHashes.length - start) ++ List.range' 0 start).map
        (fun j => mapLookup c.circle (c.sortedHashes.getD j 0)) := by
  rw [List.map_append, List.map_append]
  congr 1
  · rw [map_getD_range' c.sortedHashes (mapLookup c.circle) _ start (by omega)]
    congr 1
    have hlen : (c.sortedHashes.drop start).length = c.sortedHashes.length - start :=
      List.length_drop start c.sortedHashes
    rw [← hlen, List.take_length]
  · rw [map_getD_range' c.sortedHashes (mapLookup c.circle) start 0 (by omega)]
    rw [List.drop_zero]

theorem rot_mem_iff (c : Consistent) (hw : WF c) (start : Nat) (x : Option Node) :
    (x ∈ (c.sortedHashes.drop start ++ c.sortedHashes.take start).map (mapLookup c.circle) ↔
      ∃ v, x = some v ∧ v ∈ c.members) := by
  obtain ⟨hkn, ⟨hsorted, hsub, hkeys⟩, hvals, hmem, hnodup, hcount⟩ := hw
  have hmemrot : ∀ k, k ∈ c.sortedHashes.drop start ++ c.sortedHashes.take start ↔
      k ∈ c.sortedHashes := by
    intro k
    rw [List.mem_append]
    conv_rhs => rw [← List.take_append_drop start c.sortedHashes]
    rw [List.mem_append]
    tauto
  rw [List.mem_map]
  constructor
  · rintro ⟨k, hk, rfl⟩
    have hksorted : k ∈ c.sortedHashes := (hmemrot k).mp hk
    have hkkeys : k ∈ c.circle.map Prod.fst := hsub k hksorted
    obtain ⟨v, hv⟩ := Option.isSome_iff_exists.mp ((mapLookup_isSome_iff _ _).mpr hkkeys)
    have hpair := mem_of_mapLookup_eq_some hv
    exact ⟨v, hv, hvals _ hpair⟩
  · rintro ⟨v, rfl, hv⟩
    obtain ⟨p, hp, hpv⟩ := hmem v hv
    have hlook : mapLookup c.circle p.1 = some v := by
      apply mapLookup_eq_some_of_mem hkn
      have : p = (p.1, v) := by
        cases p
        simp_all
      exact this ▸ hp
    refine ⟨p.1, (hmemrot p.1).mpr ?_, hlook⟩
    exact hkeys _ (List.mem_map.mpr ⟨p, hp, rfl⟩)

theorem dedup_rot_length (c : Consistent) (hw : WF c) (start : Nat) :
    (firstDedup ((c.sortedHashes.drop start ++ c.sortedHashes.take start).map
      (mapLookup c.circle))).length = c.members.length := by
  have hnodup1 := firstDedup_nodup
    ((c.sortedHashes.drop start ++ c.sortedHashes.take start).map (mapLookup c.circle))
  have hnodup2 : (c.members.map some).Nodup :=
    hw.2.2.2.2.1.map (Option.some_injective Node)
  have hperm : (firstDedup ((c.sortedHashes.drop start ++ c.sortedHashes.take start).map
      (mapLookup c.circle))).Perm (c.members.map some) := by
    rw [List.perm_ext_iff_of_nodup hnodup1 hnodup2]
    intro x
    rw [mem_firstDedup, rot_mem_iff c hw start x, List.mem_map]
    constructor
    · rintro ⟨v, rfl, hv⟩; exact ⟨v, hv, rfl⟩
    · rintro ⟨v, hv, rfl⟩; exact ⟨v, rfl, hv⟩
  rw [hperm.length_eq, List.length_map]

theorem clamp_eq_min (c : Consistent) (hw : WF c) (n : Nat) :
    (if c.count < (n : Int) then c.count.toNat else n) = min n c.members.length := by
  rw [hw.2.2.2.2.2]
  split
  · next h => omega
  · next h => omega

end Consistent

namespace Consistent

theorem collectAll_singleton (a : Option Node) (vs : List (Option Node)) :
    collectAll vs [a] = firstDedup (a :: vs) := by
  rw [collectAll_eq_dedup, firstDedup_cons, List.singleton_append]
  congr 2
  apply List.filter_congr
  intro x hx
  show (!sliceContainsMember [a] x) = decide (x ≠ a)
  unfold sliceContainsMember
  simp [List.any_cons, eq_comm]

theorem collect_walk_eq_dedup_rot (c : Consistent) (start : Nat)
    (hstart : start < c.sortedHashes.length) (hlen2 : 2 ≤ c.sortedHashes.length) :
    collectAll (walkVals c start (c.sortedHashes.length + 1) (start + 1))
        [mapLookup c.circle (c.sortedHashes.getD start 0)] =
      firstDedup ((c.sortedHashes.drop start ++ c.sortedHashes.take start).map
        (mapLookup c.circle)) := by
  rw [rot_eq_map_range c start (by omega)]
  by_cases h0 : start = 0
  · subst h0
    rw [walkVals_zero_start c (c.sortedHashes.length + 1) 1 (by omega) (by omega) (by omega)]
    have hrest : c.sortedHashes.length + 1 - (c.sortedHashes.length - 1 + 1) = 1 := by omega
    rw [hrest]
    have h1 : walkVals c 0 1 1 = [mapLookup c.circle (c.sortedHashes.getD 1 0)] := by
      rw [walkVals_succ, if_neg (by omega)]
      dsimp only
      rw [if_neg (by omega), walkVals_zero_fuel]
    rw [h1]
    have hsplit : (List.map (fun j => mapLookup c.circle (c.sortedHashes.getD j 0))
          (List.range' 1 (c.sortedHashes.length - 1))) ++
          mapLookup c.circle (c.sortedHashes.getD 0 0) ::
            [mapLookup c.circle (c.sortedHashes.getD 1 0)] =
        (List.map (fun j => mapLookup c.circle (c.sortedHashes.getD j 0))
          (List.range' 1 (c.sortedHashes.length - 1))) ++
          ([mapLookup c.circle (c.sortedHashes.getD 0 0)] ++
            [mapLookup c.circle (c.sortedHashes.getD 1 0)]) := by
      simp
    rw [hsplit, ← List.append_assoc, collectAll_append, collectAll_append]
    have hmem0 : mapLookup c.circle (c.sortedHashes.getD 0 0) ∈
        collectAll (List.map (fun j => mapLookup c.circle (c.sortedHashes.getD j 0))
          (List.range' 1 (c.sortedHashes.length - 1)))
          [mapLookup c.circle (c.sortedHashes.getD 0 0)] := by
      rw [mem_collectAll]
      exact Or.inl (List.mem_singleton.mpr rfl)
    have hstep1 := collectAll_no_new [mapLookup c.circle (c.sortedHashes.getD 0 0)] _
      (by intro w hw; rcases List.mem_singleton.mp hw with rfl; exact hmem0)
    rw [hstep1]
    have hmem1 : mapLookup c.circle (c.sortedHashes.getD 1 0) ∈
        collectAll (List.map (fun j => mapLookup c.circle (c.sortedHashes.getD j 0))
          (List.range' 1 (c.sortedHashes.length - 1)))
          [mapLookup c.circle (c.sortedHashes.getD 0 0)] := by
      rw [mem_collectAll]
      refine Or.inr (List.mem_map.mpr ⟨1, ?_, rfl⟩)
      rw [List.mem_range']
      exact ⟨0, by omega, by omega⟩
    have hstep2 := collectAll_no_new [mapLookup c.circle (c.sortedHashes.getD 1 0)] _
      (by intro w hw; rcases List.mem_singleton.mp hw with rfl; exact hmem1)
    rw [hstep2, collectAll_singleton]
    congr 1
    have : List.range' 0 c.sortedHashes.length =
        0 :: List.range' 1 (c.sortedHashes.length - 1) := by
      have hl : c.sortedHashes.length = (c.sortedHashes.length - 1) + 1 := by omega
      rw [hl, List.range'_succ]
      congr 1
    rw [Nat.sub_zero, List.range'_zero, List.append_nil, this, List.map_cons]
  · have h1 : 1 ≤ start := by omega
    rw [walkVals_above c start h1 hstart (c.sortedHashes.length + 1) (start + 1)
      (by omega) (by omega) (by omega)]
    rw [collectAll_singleton]
    congr 1
    have : List.range' start (c.sortedHashes.length - start) =
        start :: List.range' (start + 1) (c.sortedHashes.length - (start + 1)) := by
      have hl : c.sortedHashes.length - start = (c.sortedHashes.length - (start + 1)) + 1 := by
        omega
      rw [hl, List.range'_succ]
    rw [this, List.cons_append, List.map_cons]

end Consistent

namespace Consistent

theorem two_members_two_entries (c : Consistent) (hw : WF c)
    (h2 : 2 ≤ c.members.length) : 2 ≤ c.sortedHashes.length := by
  obtain ⟨hkn, hci, hvals, hmem, hnodup, hcount⟩ := hw
  rw [sorted_length_eq c ⟨hkn, hci, hvals, hmem, hnodup, hcount⟩]
  cases hm : c.members with
  | nil => rw [hm] at h2; simp at h2
  | cons m1 rest =>
    cases hrest : rest with
    | nil => rw [hm, hrest] at h2; simp at h2
    | cons m2 rest2 =>
      have hm1 : m1 ∈ c.members := by rw [hm]; simp
      have hm2 : m2 ∈ c.members := by rw [hm, hrest]; simp
      have hne12 : m1 ≠ m2 := by
        rw [hm, hrest] at hnodup
        rcases List.nodup_cons.mp hnodup with ⟨hnotin, -⟩
        intro heq
        exact hnotin (heq ▸ List.mem_cons_self _ _)
      obtain ⟨p1, hp1, hp1v⟩ := hmem m1 hm1
      obtain ⟨p2, hp2, hp2v⟩ := hmem m2 hm2
      have hpne : p1 ≠ p2 := by
        intro heq
        exact hne12 (by rw [← hp1v, ← hp2v, heq])
      cases hc : c.circle with
      | nil => rw [hc] at hp1; simp at hp1
      | cons q t =>
        cases ht : t with
        | nil =>
          rw [hc, ht] at hp1 hp2
          rcases List.mem_singleton.mp hp1 with rfl
          rcases List.mem_singleton.mp hp2 with rfl
          exact absurd rfl hpne
        | cons q2 t2 => simp [hc, ht]

/-- C5 (amended): for every well-formed non-empty ring, every key, and
every `n ≥ 1`, `GetN(key, n)` returns exactly `min(n, memberCount)`
pairwise-distinct registered nodes, namely the first `min(n, memberCount)`
entries of the deduplicated forward wrapping walk starting at the primary
node `Get(key)` returns; for `n ≥ memberCount` it returns every member
exactly once.  (The original claim's `n = 0` clause is dropped: it is
refuted by `c5_counterexample`.) -/
theorem c5_getN_amended (c : Consistent) (name : List Nat) (n : Nat)
    (hw : WF c) (hne : c.circle ≠ []) (hn : 1 ≤ n) :
    ∃ res, c.GetN name n = .ok res ∧
      res = (firstDedup ((c.sortedHashes.drop (c.search (hashKey name)) ++
        c.sortedHashes.take (c.search (hashKey name))).map (mapLookup c.circle))).take
          (min n c.members.length) ∧
      res.length = min n c.members.length ∧
      res.Nodup ∧
      (∀ x ∈ res, ∃ v, x = some v ∧ v ∈ c.members) ∧
      (∃ a, c.Get name = .ok a ∧ res.head? = some a) ∧
      (c.members.length ≤ n → ∀ v : Node, some v ∈ res ↔ v ∈ c.members) := by
  have hsne := sortedHashes_ne_nil c hw hne
  have hstart : c.search (hashKey name) < c.sortedHashes.length :=
    search_lt_length c _ hsne
  set start := c.search (hashKey name) with hstartdef
  set rot := (c.sortedHashes.drop start ++ c.sortedHashes.take start).map
    (mapLookup c.circle) with hrotdef
  set a := mapLookup c.circle (c.sortedHashes.getD start 0) with hadef
  have hnm : 1 ≤ c.members.length :=
    List.length_pos.mpr (members_ne_nil c hw hne)
  have hclamp := clamp_eq_min c hw n
  set n' := min n c.members.length with hn'def
  have hn'le : n' ≤ c.members.length := min_le_right _ _
  have hn'pos : 1 ≤ n' := le_min hn hnm
  have hdlen : (firstDedup rot).length = c.members.length := dedup_rot_length c hw start
  have hrot : ∃ tl, rot = a :: tl := by
    have hd : c.sortedHashes.drop start =
        c.sortedHashes[start] :: c.sortedHashes.drop (start + 1) :=
      List.drop_eq_getElem_cons hstart
    refine ⟨(c.sortedHashes.drop (start + 1) ++ c.sortedHashes.take start).map
      (mapLookup c.circle), ?_⟩
    rw [hrotdef, hd, List.cons_append, List.map_cons, hadef,
      List.getD_eq_getElem _ _ hstart]
  obtain ⟨tl, hrot⟩ := hrot
  have hGet : c.Get name = .ok a := Get_ok_of_ne c name hne
  have hamem : ∃ v, a = some v ∧ v ∈ c.members := by
    have : a ∈ rot := by rw [hrot]; simp
    exact (rot_mem_iff c hw start a).mp this
  rw [GetN_eq c name n hne, hclamp]
  by_cases h1 : 1 = n'
  · rw [if_pos h1]
    refine ⟨[a], rfl, ?_, ?_, ?_, ?_, ⟨a, hGet, rfl⟩, ?_⟩
    · rw [← h1, hrot, firstDedup_cons, List.take_succ_cons, List.take_zero]
    · simp [← h1]
    · simp
    · intro x hx
      rcases List.mem_singleton.mp hx with rfl
      exact hamem
    · intro hMn v
      have hM1 : c.members.length = 1 := by omega
      obtain ⟨m, hm⟩ := List.length_eq_one.mp hM1
      obtain ⟨w, hw1, hw2⟩ := hamem
      rw [hm] at hw2
      rcases List.mem_singleton.mp hw2 with rfl
      constructor
      · intro hv
        rcases List.mem_singleton.mp hv with hv
        rw [hm]
        have : v = w := by
          rw [hw1] at hv
          exact (Option.some_injective Node hv.symm).symm
        rw [this]
        simp
      · intro hv
        rw [hm] at hv
        rcases List.mem_singleton.mp hv with rfl
        rw [← hw1]
        simp
  · rw [if_neg h1]
    have hn'2 : 2 ≤ n' := by omega
    have hM2 : 2 ≤ c.members.length := by omega
    have hlen2 : 2 ≤ c.sortedHashes.length := two_members_two_entries c hw hM2
    rw [getNLoop_eq_collectVals]
    have hcollect : collectAll (walkVals c start (c.sortedHashes.length + 1) (start + 1))
        [a] = firstDedup rot :=
      collect_walk_eq_dedup_rot c start hstart hlen2
    have htake : collectVals n' (walkVals c start (c.sortedHashes.length + 1) (start + 1))
        [a] = (firstDedup rot).take n' := by
      rw [collectVals_eq_take n' _ [a] (by simpa using hn'2)
        (by rw [hcollect, hdlen]; omega), hcollect]
    rw [htake]
    refine ⟨(firstDedup rot).take n', rfl, rfl, ?_, ?_, ?_, ?_, ?_⟩
    · rw [List.length_take, hdlen]
      omega
    · exact (List.take_sublist _ _).nodup (firstDedup_nodup rot)
    · intro x hx
      have hxfull : x ∈ firstDedup rot := (List.take_sublist _ _).mem hx
      rw [mem_firstDedup] at hxfull
      exact (rot_mem_iff c hw start x).mp hxfull
    · refine ⟨a, hGet, ?_⟩
      rw [hrot, firstDedup_cons]
      obtain ⟨k, hk⟩ : ∃ k, n' = k + 1 := ⟨n' - 1, by omega⟩
      rw [hk, List.take_succ_cons, List.head?_cons]
    · intro hMn v
      have hn'M : n' = c.members.length := by omega
      have hfull : (firstDedup rot).take n' = firstDedup rot := by
        rw [hn'M, ← hdlen, List.take_length]
      rw [hfull, mem_firstDedup]
      constructor
      · intro hv
        obtain ⟨w, hw1, hw2⟩ := (rot_mem_iff c hw start _).mp hv
        have : v = w := Option.some_injective Node hw1
        rw [this]
        exact hw2
      · intro hv
        have : (some v : Option Node) ∈ rot :=
          (rot_mem_iff c hw start (some v)).mpr ⟨v, rfl, hv⟩
        exact this

end Consistent

namespace Consistent

theorem valAt_member (c : Consistent) (hw : WF c) (j : Nat)
    (hj : j < c.sortedHashes.length) :
    ∃ v, mapLookup c.circle (c.sortedHashes.getD j 0) = some v ∧ v ∈ c.members := by
  obtain ⟨hkn, ⟨hsorted, hsub, hkeys⟩, hvals, hmem, hnodup, hcount⟩ := hw
  have hjmem : c.sortedHashes.getD j 0 ∈ c.sortedHashes := by
    rw [List.getD_eq_getElem _ _ hj]
    exact List.getElem_mem hj
  have hkk : c.sortedHashes.getD j 0 ∈ c.circle.map Prod.fst := hsub _ hjmem
  obtain ⟨v, hv⟩ := Option.isSome_iff_exists.mp ((mapLookup_isSome_iff _ _).mpr hkk)
  exact ⟨v, hv, hvals _ (mem_of_mapLookup_eq_some hv)⟩

theorem exists_other_member (l : List Node) (hnodup : l.Nodup) (h2 : 2 ≤ l.length)
    (x : Node) (hx : x ∈ l) : ∃ y ∈ l, y ≠ x := by
  cases hl : l with
  | nil => rw [hl] at h2; simp at h2
  | cons a t =>
    cases ht : t with
    | nil => rw [hl, ht] at h2; simp at h2
    | cons b t2 =>
      subst hl
      subst ht
      by_cases hxa : x = a
      · refine ⟨b, by simp, ?_⟩
        rcases List.nodup_cons.mp hnodup with ⟨hnotin, -⟩
        intro hbx
        exact hnotin (by rw [← hxa, ← hbx]; simp)
      · exact ⟨a, by simp, fun hax => hxa (hax ▸ rfl)⟩

theorem member_has_index (c : Consistent) (hw : WF c) (B : Node) (hB : B ∈ c.members) :
    ∃ j, j < c.sortedHashes.length ∧
      mapLookup c.circle (c.sortedHashes.getD j 0) = some B := by
  obtain ⟨hkn, ⟨hsorted, hsub, hkeys⟩, hvals, hmem, hnodup, hcount⟩ := hw
  obtain ⟨p, hp, hpv⟩ := hmem B hB
  have hlook : mapLookup c.circle p.1 = some B := by
    apply mapLookup_eq_some_of_mem hkn
    have : p = (p.1, B) := by
      cases p; simp_all
    exact this ▸ hp
  have hpk : p.1 ∈ c.sortedHashes := hkeys _ (List.mem_map.mpr ⟨p, hp, rfl⟩)
  obtain ⟨j, hj, hjv⟩ := List.mem_iff_getElem.mp hpk
  refine ⟨j, hj, ?_⟩
  rw [List.getD_eq_getElem _ _ hj, hjv, hlook]

theorem walk_covers (c : Consistent) (start : Nat)
    (hstart : start < c.sortedHashes.length) (hlen2 : 2 ≤ c.sortedHashes.length)
    (j : Nat) (hj : j < c.sortedHashes.length) (hjs : j ≠ start) :
    mapLookup c.circle (c.sortedHashes.getD j 0) ∈
      walkVals c start (c.sortedHashes.length + 1) (start + 1) := by
  by_cases h0 : start = 0
  · subst h0
    rw [walkVals_zero_start c (c.sortedHashes.length + 1) 1 (by omega) (by omega) (by omega)]
    have hrest : c.sortedHashes.length + 1 - (c.sortedHashes.length - 1 + 1) = 1 := by omega
    rw [hrest]
    rw [List.mem_append]
    rcases Nat.eq_zero_or_pos j with hj0 | hjpos
    · exact absurd hj0 hjs
    · refine Or.inl (List.mem_map.mpr ⟨j, ?_, rfl⟩)
      rw [List.mem_range']
      exact ⟨j - 1, by omega, by omega⟩
  · rw [walkVals_above c start (by omega) hstart (c.sortedHashes.length + 1) (start + 1)
      (by omega) (by omega) (by omega)]
    refine List.mem_map.mpr ⟨j, ?_, rfl⟩
    rw [List.mem_append, List.mem_range', List.mem_range']
    rcases Nat.lt_or_ge j start with hlt | hge
    · exact Or.inr ⟨j, by omega, by omega⟩
    · exact Or.inl ⟨j - start - 1, by omega, by omega⟩

theorem walk_elements (c : Consistent) (start : Nat)
    (hstart : start < c.sortedHashes.length) (hlen2 : 2 ≤ c.sortedHashes.length) :
    ∀ w ∈ walkVals c start (c.sortedHashes.length + 1) (start + 1),
      ∃ j, j < c.sortedHashes.length ∧
        w = mapLookup c.circle (c.sortedHashes.getD j 0) := by
  intro w hwmem
  by_cases h0 : start = 0
  · subst h0
    rw [walkVals_zero_start c (c.sortedHashes.length + 1) 1 (by omega) (by omega) (by omega)]
      at hwmem
    have hrest : c.sortedHashes.length + 1 - (c.sortedHashes.length - 1 + 1) = 1 := by omega
    rw [hrest] at hwmem
    have h1 : walkVals c 0 1 1 = [mapLookup c.circle (c.sortedHashes.getD 1 0)] := by
      rw [walkVals_succ, if_neg (by omega)]
      dsimp only
      rw [if_neg (by omega), walkVals_zero_fuel]
    rw [h1] at hwmem
    rcases List.mem_append.mp hwmem with hmem1 | hmem2
    · obtain ⟨j, hjr, hjw⟩ := List.mem_map.mp hmem1
      rw [List.mem_range'] at hjr
      obtain ⟨i, hi, hji⟩ := hjr
      exact ⟨j, by omega, hjw.symm⟩
    · rcases List.mem_cons.mp hmem2 with rfl | hmem3
      · exact ⟨0, by omega, rfl⟩
      · rcases List.mem_singleton.mp hmem3 with rfl
        exact ⟨1, by omega, rfl⟩
  · rw [walkVals_above c start (by omega) hstart (c.sortedHashes.length + 1) (start + 1)
      (by omega) (by omega) (by omega)] at hwmem
    obtain ⟨j, hjr, hjw⟩ := List.mem_map.mp hwmem
    rw [List.mem_append, List.mem_range', List.mem_range'] at hjr
    rcases hjr with ⟨i, hi, hji⟩ | ⟨i, hi, hji⟩
    · exact ⟨j, by omega, hjw.symm⟩
    · exact ⟨j, by omega, hjw.symm⟩

end Consistent

/-- C6: on a well-formed non-empty ring, `GetTwo(key)` returns as first
result exactly the node `Get(key)` returns; with at least two registered
members the two results are distinct registered members, and with exactly
one member the second result is absent (`nil`) with no error. -/
theorem c6_getTwo_distinct (c : Consistent) (name : List Nat)
    (hw : WF c) (hne : c.circle ≠ []) :
    (∃ a r, c.Get name = .ok a ∧ c.GetTwo name = .ok r ∧ r.1 = a) ∧
    (c.members.length = 1 →
      ∃ A, c.GetTwo name = .ok (some A, none) ∧ c.Get name = .ok (some A)) ∧
    (2 ≤ c.members.length →
      ∃ A B, c.GetTwo name = .ok (some A, some B) ∧ A ≠ B ∧
        A ∈ c.members ∧ B ∈ c.members ∧ c.Get name = .ok (some A)) := by
  have hsne := Consistent.sortedHashes_ne_nil c hw hne
  have hstart : c.search (hashKey name) < c.sortedHashes.length :=
    Consistent.search_lt_length c _ hsne
  set start := c.search (hashKey name) with hstartdef
  set a := mapLookup c.circle (c.sortedHashes.getD start 0) with hadef
  have hGet : c.Get name = .ok a := Consistent.Get_ok_of_ne c name hne
  have hamem : ∃ v, a = some v ∧ v ∈ c.members :=
    Consistent.valAt_member c hw start hstart
  have hcount := hw.2.2.2.2.2
  have hG2 := Consistent.GetTwo_eq c name hne
  refine ⟨?_, ?_, ?_⟩
  · by_cases hc1 : c.count = 1
    · exact ⟨a, (a, none), hGet, by rw [hG2, if_pos hc1], rfl⟩
    · exact ⟨a, (a, _), hGet, by rw [hG2, if_neg hc1], rfl⟩
  · intro hM1
    obtain ⟨A, hA1, hA2⟩ := hamem
    have hc1 : c.count = 1 := by rw [hcount, hM1]; rfl
    refine ⟨A, ?_, by rw [hGet, hA1]⟩
    rw [hG2, if_pos hc1, ← hstartdef, ← hadef, hA1]
  · intro hM2
    obtain ⟨A, hA1, hA2⟩ := hamem
    have hc1 : ¬(c.count = 1) := by
      rw [hcount]
      intro hcc
      have : c.members.length = 1 := by exact_mod_cast hcc
      omega
    have hlen2 : 2 ≤ c.sortedHashes.length :=
      Consistent.two_members_two_entries c hw hM2
    obtain ⟨B0, hB0mem, hB0ne⟩ :=
      Consistent.exists_other_member c.members hw.2.2.2.2.1 hM2 A hA2
    obtain ⟨j, hj, hjval⟩ := Consistent.member_has_index c hw B0 hB0mem
    have hjne : j ≠ start := by
      intro hjs
      rw [hjs, ← hadef, hA1] at hjval
      exact hB0ne (Option.some_injective Node hjval.symm)
    have hvalne : mapLookup c.circle (c.sortedHashes.getD j 0) ≠ a := by
      rw [hjval, hA1]
      intro hsome
      exact hB0ne (Option.some_injective Node hsome)
    have hcov := Consistent.walk_covers c start hstart hlen2 j hj hjne
    have hfound : (walkVals c start (c.sortedHashes.length + 1) (start + 1)).find?
        (fun v => v ≠ a) |>.isSome := by
      rw [List.find?_isSome]
      exact ⟨_, hcov, by simpa using hvalne⟩
    obtain ⟨w, hwfind⟩ := Option.isSome_iff_exists.mp hfound
    have hwne : w ≠ a := by simpa using List.find?_some hwfind
    have hwmem := List.mem_of_find?_eq_some hwfind
    obtain ⟨j2, hj2, hj2w⟩ := Consistent.walk_elements c start hstart hlen2 w hwmem
    obtain ⟨B, hB1, hB2⟩ := by
      have := Consistent.valAt_member c hw j2 hj2
      rwa [← hj2w] at this
    have hloop : Consistent.getTwoLoop c a start (c.sortedHashes.length + 1)
        (start + 1) none = w := by
      rw [Consistent.getTwoLoop_eq_walkBreak]
      unfold Consistent.walkBreak
      rw [hwfind]
    refine ⟨A, B, ?_, ?_, hA2, hB2, by rw [hGet, hA1]⟩
    · rw [hG2, if_neg hc1, ← hstartdef, ← hadef, hloop, hA1, hB1]
    · intro hAB
      rw [hA1] at hwne
      rw [hB1, hAB] at hwne
      exact hwne rfl

namespace Consistent

theorem foldDelete_eq_filter {β : Type} (g : β → Nat) :
    ∀ (l : List β) (m : List (Nat × Node)),
      l.foldl (fun m i => mapDelete m (g i)) m =
        m.filter (fun p => decide (∀ i ∈ l, p.1 ≠ g i)) := by
  intro l
  induction l with
  | nil =>
    intro m
    rw [List.foldl_nil]
    have : ∀ p ∈ m, (decide (∀ i ∈ ([] : List β), p.1 ≠ g i)) = true := by
      intro p hp
      simp
    conv_lhs => rw [← List.filter_true m]
    exact (List.filter_congr (by intro p hp; simp)).symm
  | cons a rest ih =>
    intro m
    rw [List.foldl_cons, ih]
    unfold mapDelete
    rw [List.filter_filter]
    apply List.filter_congr
    intro p hp
    simp only [List.forall_mem_cons]
    rw [Bool.and_comm]
    simp

theorem remove_circle_eq (c : Consistent) (B : Node) (hw : WF c)
    (hd : entriesDerived c) (hcf : collisionFree c) (hB : B ∈ c.members) :
    (c.remove B).circle = c.circle.filter (fun p => p.2 ≠ B) := by
  rw [circle_remove, foldDelete_eq_filter]
  apply List.filter_congr
  intro p hp
  have hpm : p.2 ∈ c.members := hw.2.2.1 p hp
  apply decide_eq_decide.mpr
  constructor
  · intro hall hpB
    obtain ⟨i, hi, hpk⟩ := hd p hp
    exact hall i (List.mem_range.mpr hi) (by rw [hpk, hpB])
  · intro hpB i hi hpk
    obtain ⟨j, hj, hpj⟩ := hd p hp
    have hcoll : hashKey (elementKey p.2 j) = hashKey (elementKey B i) := by
      rw [← hpj]; exact hpk
    exact hpB (hcf p.2 hpm B hB j hj i (List.mem_range.mp hi) hcoll)

end Consistent

namespace Consistent

theorem filter_ne_length (l : List Node) (hnodup : l.Nodup) (B : Node) (hB : B ∈ l) :
    (l.filter (fun x => x ≠ B)).length = l.length - 1 := by
  have herase := hnodup.erase_eq_filter B
  have hfil : l.filter (fun x => x != B) = l.filter (fun x => decide (x ≠ B)) := by
    apply List.filter_congr
    intro x hx
    by_cases hxB : x = B <;> simp [hxB, bne]
  rw [← hfil, ← herase]
  exact List.length_erase_of_mem hB

theorem remove_WF (c : Consistent) (B : Node) (hw : WF c) (hd : entriesDerived c)
    (hcf : collisionFree c) (hB : B ∈ c.members) : WF (c.remove B) := by
  have hcirc := remove_circle_eq c B hw hd hcf hB
  have hpres := remove_preserves c B hw.1
  obtain ⟨hkn, hci, hvals, hmem, hnodup, hcount⟩ := hw
  refine ⟨hpres.1, hpres.2.1, ?_, ?_, ?_, ?_⟩
  · intro p hp
    rw [hcirc] at hp
    rcases List.mem_filter.mp hp with ⟨hpc, hpB⟩
    rw [members_remove, List.mem_filter]
    exact ⟨hvals p hpc, hpB⟩
  · intro m hm
    rw [members_remove, List.mem_filter] at hm
    rcases hm with ⟨hmm, hmB⟩
    obtain ⟨p, hp, hpv⟩ := hmem m hmm
    refine ⟨p, ?_, hpv⟩
    rw [hcirc, List.mem_filter]
    exact ⟨hp, by rw [hpv]; exact hmB⟩
  · rw [members_remove]
    exact hnodup.filter _
  · show (c.remove B).count = _
    have hcnt : (c.remove B).count = c.count - 1 := rfl
    rw [hcnt, hcount, members_remove, filter_ne_length c.members hnodup B hB]
    have hpos : 1 ≤ c.members.length := List.length_pos.mpr (by
      intro hnil
      rw [hnil] at hB
      simp at hB)
    omega

/-- C8: on a collision-free well-formed ring, removing a member `B` remaps
only keys previously owned by `B`: a key that `Get` mapped to `A ≠ B`
before `Remove(B)` is still mapped to `A` afterwards — in particular never
to the removed node, and only among surviving nodes. -/
theorem c8_remove_minimal_disruption (c : Consistent) (name : List Nat) (A B : Node)
    (hw : WF c) (hd : entriesDerived c) (hcf : collisionFree c)
    (hB : B ∈ c.members) (hAB : A ≠ B)
    (hget : c.Get name = .ok (some A)) :
    (c.remove B).Get name = .ok (some A) ∧ A ∈ (c.remove B).members ∧ A ≠ B := by
  have hcne : c.circle ≠ [] := by
    intro hc
    unfold Get at hget
    rw [if_pos (by simpa using hc)] at hget
    exact Except.noConfusion hget
  have hcirc := remove_circle_eq c B hw hd hcf hB
  have hlook : mapLookup c.circle (minAbove c.sortedHashes (hashKey name)) = some A :=
    Except.ok.inj ((Get_eq_minAbove c name hw hcne).symm.trans hget)
  set p := minAbove c.sortedHashes (hashKey name) with hpdef
  have hpair : (p, A) ∈ c.circle := mem_of_mapLookup_eq_some hlook
  have hpair' : (p, A) ∈ (c.remove B).circle := by
    rw [hcirc, List.mem_filter]
    exact ⟨hpair, by simpa using hAB⟩
  have hcne' : (c.remove B).circle ≠ [] := by
    intro h
    rw [h] at hpair'
    simp at hpair'
  have hw' := remove_WF c B hw hd hcf hB
  have hsne := sortedHashes_ne_nil c hw hcne
  have hsne' := sortedHashes_ne_nil _ hw' hcne'
  have hsub' : ∀ k ∈ (c.remove B).sortedHashes, k ∈ c.sortedHashes := by
    intro k hk
    have hkk : k ∈ (c.remove B).circle.map Prod.fst := hw'.2.1.2.1 k hk
    obtain ⟨q, hq, hqk⟩ := List.mem_map.mp hkk
    rw [hcirc] at hq
    have hqc : q ∈ c.circle := (List.mem_filter.mp hq).1
    exact hw.2.1.2.2 k (List.mem_map.mpr ⟨q, hqc, hqk⟩)
  have hpmem' : p ∈ (c.remove B).sortedHashes :=
    hw'.2.1.2.2 p (List.mem_map.mpr ⟨(p, A), hpair', rfl⟩)
  have hkey : minAbove (c.remove B).sortedHashes (hashKey name) = p := by
    by_cases hex : ∃ q ∈ c.sortedHashes, hashKey name < q
    · obtain ⟨hlt, hmin⟩ := minAbove_above c.sortedHashes (hashKey name) hw.2.1.1 hex
      rw [← hpdef] at hlt hmin
      have hex' : ∃ q ∈ (c.remove B).sortedHashes, hashKey name < q := ⟨p, hpmem', hlt⟩
      obtain ⟨hlt', hmin'⟩ :=
        minAbove_above (c.remove B).sortedHashes (hashKey name) hw'.2.1.1 hex'
      have h1 : minAbove (c.remove B).sortedHashes (hashKey name) ≤ p := hmin' p hpmem' hlt
      have h2 : p ≤ minAbove (c.remove B).sortedHashes (hashKey name) :=
        hmin _ (hsub' _ (minAbove_mem _ _ hsne')) hlt'
      omega
    · push_neg at hex
      have hall : ∀ q ∈ c.sortedHashes, ¬(hashKey name < q) := by
        intro q hq
        have := hex q hq
        omega
      have hall' : ∀ q ∈ (c.remove B).sortedHashes, ¬(hashKey name < q) :=
        fun q hq => hall q (hsub' q hq)
      have hmin := minAbove_wrap c.sortedHashes (hashKey name) hw.2.1.1 hsne hall
      rw [← hpdef] at hmin
      have hmin' := minAbove_wrap (c.remove B).sortedHashes (hashKey name)
        hw'.2.1.1 hsne' hall'
      have h1 : minAbove (c.remove B).sortedHashes (hashKey name) ≤ p := hmin' p hpmem'
      have h2 : p ≤ minAbove (c.remove B).sortedHashes (hashKey name) :=
        hmin _ (hsub' _ (minAbove_mem _ _ hsne'))
      omega
  have hlook' : mapLookup (c.remove B).circle p = some A :=
    mapLookup_eq_some_of_mem hw'.1 hpair'
  refine ⟨?_, ?_, hAB⟩
  · rw [Get_eq_minAbove _ name hw' hcne', hkey, hlook']
  · rw [members_remove, List.mem_filter]
    exact ⟨hw.2.2.1 _ hpair, by simpa using hAB⟩

end Consistent

/-- C5, witness: the amended `GetN` theorem instantiated on the two-node
ring with key `"0"` and `n = 1`. -/
theorem c5_witness :
    WF ringAB ∧ ringAB.circle ≠ [] ∧ 1 ≤ 1 ∧
    (∃ res, ringAB.GetN [48] 1 = .ok res ∧
      res = (firstDedup ((ringAB.sortedHashes.drop (ringAB.search (hashKey [48])) ++
        ringAB.sortedHashes.take (ringAB.search (hashKey [48]))).map
          (mapLookup ringAB.circle))).take (min 1 ringAB.members.length) ∧
      res.length = min 1 ringAB.members.length ∧
      res.Nodup ∧
      (∀ x ∈ res, ∃ v, x = some v ∧ v ∈ ringAB.members) ∧
      (∃ a, ringAB.Get [48] = .ok a ∧ res.head? = some a) ∧
      (ringAB.members.length ≤ 1 → ∀ v : Node, some v ∈ res ↔ v ∈ ringAB.members)) :=
  ⟨by decide, by decide, by decide,
    Consistent.c5_getN_amended ringAB [48] 1 (by decide) (by decide) (by decide)⟩

/-- C6, witness: the `GetTwo` theorem instantiated on the two-node ring
with key `"0"`. -/
theorem c6_witness :
    WF ringAB ∧ ringAB.circle ≠ [] ∧
    ((∃ a r, ringAB.Get [48] = .ok a ∧ ringAB.GetTwo [48] = .ok r ∧ r.1 = a) ∧
     (ringAB.members.length = 1 →
       ∃ A, ringAB.GetTwo [48] = .ok (some A, none) ∧ ringAB.Get [48] = .ok (some A)) ∧
     (2 ≤ ringAB.members.length →
       ∃ A B, ringAB.GetTwo [48] = .ok (some A, some B) ∧ A ≠ B ∧
         A ∈ ringAB.members ∧ B ∈ ringAB.members ∧ ringAB.Get [48] = .ok (some A))) :=
  ⟨by decide, by decide, c6_getTwo_distinct ringAB [48] (by decide) (by decide)⟩

/-- C8, witness: the minimal-disruption theorem instantiated on the
three-node ring: key `"0"` maps to `nodeB`; removing `nodeC` keeps it on
`nodeB`. -/
theorem c8_witness :
    WF ringABC ∧ entriesDerived ringABC ∧ collisionFree ringABC ∧
    nodeC ∈ ringABC.members ∧ nodeB ≠ nodeC ∧
    ringABC.Get [48] = .ok (some nodeB) ∧
    ((ringABC.remove nodeC).Get [48] = .ok (some nodeB) ∧
      nodeB ∈ (ringABC.remove nodeC).members ∧ nodeB ≠ nodeC) :=
  ⟨by decide, by decide, by decide, by decide, by decide, by decide,
    Consistent.c8_remove_minimal_disruption ringABC [48] nodeB nodeC (by decide) (by decide)
      (by decide) (by decide) (by decide) (by decide)⟩

namespace Consistent

theorem mapLookup_mapInsert_same (m : List (Nat × Node)) (k : Nat) (v : Node) :
    mapLookup (mapInsert m k v) k = some v := by
  unfold mapLookup mapInsert
  rw [List.find?_cons_of_pos _ (by simp)]
  rfl

theorem mapLookup_mapInsert_ne (m : List (Nat × Node)) (k : Nat) (v : Node)
    (k' : Nat) (h : k' ≠ k) :
    mapLookup (mapInsert m k v) k' = mapLookup m k' := by
  unfold mapLookup mapInsert
  rw [List.find?_cons_of_neg _ (by simpa using fun he => h he.symm)]
  congr 1
  induction m with
  | nil => rfl
  | cons p m' ih =>
    rw [List.filter_cons]
    by_cases hp : p.1 = k
    · rw [if_neg (by simpa using hp)]
      rw [List.find?_cons_of_neg _ (by simpa using fun he => h (by rw [← he, hp]))]
      exact ih
    · rw [if_pos (by simpa using hp)]
      by_cases hpk' : p.1 = k'
      · rw [List.find?_cons_of_pos _ (by simpa using hpk'),
          List.find?_cons_of_pos _ (by simpa using hpk')]
      · rw [List.find?_cons_of_neg _ (by simpa using hpk'),
          List.find?_cons_of_neg _ (by simpa using hpk')]
        exact ih

theorem mem_mapInsert (m : List (Nat × Node)) (k : Nat) (v : Node)
    (p : Nat × Node) (hp : p ∈ mapInsert m k v) : p = (k, v) ∨ p ∈ m := by
  unfold mapInsert at hp
  rcases List.mem_cons.mp hp with h | h
  · exact Or.inl h
  · exact Or.inr (List.mem_filter.mp h).1

theorem foldInsert_lookup_keep {β : Type} (g : β → Nat) (v : Node) :
    ∀ (l : List β) (m : List (Nat × Node)) (k : Nat),
      mapLookup m k = some v →
      mapLookup (l.foldl (fun m i => mapInsert m (g i) v) m) k = some v := by
  intro l
  induction l with
  | nil => intro m k h; exact h
  | cons a l' ih =>
    intro m k h
    rw [List.foldl_cons]
    apply ih
    by_cases hk : k = g a
    · rw [hk, mapLookup_mapInsert_same]
    · rw [mapLookup_mapInsert_ne _ _ _ _ hk]
      exact h

theorem foldInsert_lookup_same {β : Type} (g : β → Nat) (v : Node) :
    ∀ (l : List β) (m : List (Nat × Node)) (b : β), b ∈ l →
      mapLookup (l.foldl (fun m i => mapInsert m (g i) v) m) (g b) = some v := by
  intro l
  induction l with
  | nil => intro m b h; simp at h
  | cons a l' ih =>
    intro m b hb
    rw [List.foldl_cons]
    rcases List.mem_cons.mp hb with rfl | hb'
    · exact foldInsert_lookup_keep g v l' _ _ (mapLookup_mapInsert_same m (g b) v)
    · exact ih _ b hb'

theorem foldInsert_lookup_other {β : Type} (g : β → Nat) (v : Node) :
    ∀ (l : List β) (m : List (Nat × Node)) (k : Nat),
      (∀ b ∈ l, g b ≠ k) →
      mapLookup (l.foldl (fun m i => mapInsert m (g i) v) m) k = mapLookup m k := by
  intro l
  induction l with
  | nil => intro m k _; rfl
  | cons a l' ih =>
    intro m k h
    rw [List.foldl_cons, ih _ k (fun b hb => h b (List.mem_cons_of_mem _ hb)),
      mapLookup_mapInsert_ne _ _ _ _ (fun he => h a (List.mem_cons_self _ _) he.symm)]

theorem mem_foldInsert {β : Type} (g : β → Nat) (v : Node) :
    ∀ (l : List β) (m : List (Nat × Node)) (p : Nat × Node),
      p ∈ l.foldl (fun m i => mapInsert m (g i) v) m → p.2 = v ∨ p ∈ m := by
  intro l
  induction l with
  | nil => intro m p h; exact Or.inr h
  | cons a l' ih =>
    intro m p h
    rw [List.foldl_cons] at h
    rcases ih _ p h with h2 | h2
    · exact Or.inl h2
    · rcases mem_mapInsert _ _ _ _ h2 with rfl | h3
      · exact Or.inl rfl
      · exact Or.inr h3

theorem add_lookup_own (c : Consistent) (el : Node) (i : Nat)
    (hi : i < c.NumberOfReplicas) :
    mapLookup (c.add el).circle (hashKey (elementKey el i)) = some el := by
  rw [circle_add]
  exact foldInsert_lookup_same _ el _ _ i (List.mem_range.mpr hi)

theorem add_lookup_other (c : Consistent) (el : Node) (k : Nat)
    (h : ∀ i < c.NumberOfReplicas, k ≠ hashKey (elementKey el i)) :
    mapLookup (c.add el).circle k = mapLookup c.circle k := by
  rw [circle_add]
  exact foldInsert_lookup_other _ el _ _ k
    (fun b hb he => h b (List.mem_range.mp hb) he.symm)

theorem mem_add_circle (c : Consistent) (el : Node) (p : Nat × Node)
    (hp : p ∈ (c.add el).circle) : p.2 = el ∨ p ∈ c.circle := by
  rw [circle_add] at hp
  exact mem_foldInsert _ el _ _ p hp

end Consistent

namespace Consistent

theorem reps_remove (c : Consistent) (el : Node) :
    (c.remove el).NumberOfReplicas = c.NumberOfReplicas := rfl

theorem reps_add (c : Consistent) (el : Node) :
    (c.add el).NumberOfReplicas = c.NumberOfReplicas := rfl

theorem remove_circle_eq' (c : Consistent) (B : Node) (hd : entriesDerived c)
    (hnc : ∀ p ∈ c.circle, ∀ i < c.NumberOfReplicas, ∀ j < c.NumberOfReplicas,
      hashKey (elementKey p.2 i) = hashKey (elementKey B j) → p.2 = B) :
    (c.remove B).circle = c.circle.filter (fun p => p.2 ≠ B) := by
  rw [circle_remove, foldDelete_eq_filter]
  apply List.filter_congr
  intro p hp
  apply decide_eq_decide.mpr
  constructor
  · intro hall hpB
    obtain ⟨i, hi, hpk⟩ := hd p hp
    exact hall i (List.mem_range.mpr hi) (by rw [hpk, hpB])
  · intro hpB i hi hpk
    obtain ⟨j, hj, hpj⟩ := hd p hp
    exact hpB (hnc p hp j hj i (List.mem_range.mp hi) (by rw [← hpj]; exact hpk))

theorem set_phase1_circle (elems : List Node) (R : Nat) :
    ∀ (S : List Node) (acc : Consistent),
      acc.NumberOfReplicas = R →
      entriesDerived acc →
      (∀ p ∈ acc.circle, ∀ k ∈ S, ∀ i < R, ∀ j < R,
        hashKey (elementKey p.2 i) = hashKey (elementKey k j) → p.2 = k) →
      (S.foldl (fun acc k => if elems.contains k then acc else acc.remove k) acc).circle =
        acc.circle.filter (fun p => decide (¬(p.2 ∈ S ∧ p.2 ∉ elems))) := by
  intro S
  induction S with
  | nil =>
    intro acc hR hd hcol
    have htriv : acc.circle.filter (fun p => decide (¬(p.2 ∈ ([] : List Node) ∧ p.2 ∉ elems)))
        = acc.circle.filter (fun _ => true) :=
      List.filter_congr (by intro p hp; simp)
    rw [List.foldl_nil, htriv, List.filter_true]
  | cons k S' ih =>
    intro acc hR hd hcol
    rw [List.foldl_cons]
    by_cases hk : elems.contains k
    · rw [if_pos hk]
      rw [ih acc hR hd (fun p hp k' hk' => hcol p hp k' (List.mem_cons_of_mem _ hk'))]
      apply List.filter_congr
      intro p hp
      have hk' : k ∈ elems := by simpa using hk
      apply decide_eq_decide.mpr
      by_cases h2 : p.2 = k
      · subst h2
        simp [hk']
      · constructor
        · intro hni hcons
          rcases hcons with ⟨hin, hnel⟩
          rcases List.mem_cons.mp hin with he | hin'
          · exact h2 he
          · exact hni ⟨hin', hnel⟩
        · intro hni hS'
          exact hni ⟨List.mem_cons_of_mem _ hS'.1, hS'.2⟩
    · rw [if_neg hk]
      have hk' : k ∉ elems := by simpa using hk
      have hrem : (acc.remove k).circle = acc.circle.filter (fun p => p.2 ≠ k) := by
        apply remove_circle_eq' acc k hd
        intro p hp i hi j hj
        rw [hR] at hi hj
        exact hcol p hp k (List.mem_cons_self _ _) i hi j hj
      have hd' : entriesDerived (acc.remove k) := by
        intro p hp
        rw [hrem] at hp
        have := hd p (List.mem_filter.mp hp).1
        rw [reps_remove]
        exact this
      have hcol' : ∀ p ∈ (acc.remove k).circle, ∀ k' ∈ S', ∀ i < R, ∀ j < R,
          hashKey (elementKey p.2 i) = hashKey (elementKey k' j) → p.2 = k' := by
        intro p hp k' hk'
        rw [hrem] at hp
        exact hcol p (List.mem_filter.mp hp).1 k' (List.mem_cons_of_mem _ hk')
      rw [ih (acc.remove k) (by rw [reps_remove, hR]) hd' hcol', hrem,
        List.filter_filter]
      apply List.filter_congr
      intro p hp
      by_cases h2 : p.2 = k
      · subst h2
        simp [hk']
      · by_cases h3 : p.2 ∈ S' <;> by_cases h4 : p.2 ∈ elems <;>
          simp [h2, h3, h4, List.mem_cons]

end Consistent

namespace Consistent

theorem set_phase2_lookup_preserve :
    ∀ (E : List Node) (acc : Consistent) (k : Nat),
      (∀ w ∈ E, w ∉ acc.members → ∀ j < acc.NumberOfReplicas,
        k ≠ hashKey (elementKey w j)) →
      mapLookup ((E.foldl
        (fun acc v => if acc.members.contains v then acc else acc.add v) acc)).circle k =
        mapLookup acc.circle k := by
  intro E
  induction E with
  | nil => intro acc k _; rfl
  | cons w E' ih =>
    intro acc k hcond
    rw [List.foldl_cons]
    by_cases hw : acc.members.contains w
    · rw [if_pos hw]
      exact ih acc k (fun w' hw' => hcond w' (List.mem_cons_of_mem _ hw'))
    · rw [if_neg hw]
      have hwm : w ∉ acc.members := by simpa using hw
      have step : mapLookup (acc.add w).circle k = mapLookup acc.circle k :=
        add_lookup_other acc w k (hcond w (List.mem_cons_self _ _) hwm)
      rw [← step]
      apply ih
      intro w' hw' hw'notin j hj
      have hw'acc : w' ∉ acc.members := by
        intro hin
        exact hw'notin (by rw [members_add, mem_memInsert]; exact Or.inr hin)
      rw [reps_add] at hj
      exact hcond w' (List.mem_cons_of_mem _ hw') hw'acc j hj

theorem set_phase2_added_owns (U : List Node) (R : Nat)
    (hcf : ∀ a ∈ U, ∀ b ∈ U, ∀ i < R, ∀ j < R,
      hashKey (elementKey a i) = hashKey (elementKey b j) → a = b) :
    ∀ (E : List Node) (acc : Consistent),
      acc.NumberOfReplicas = R →
      (∀ x ∈ E, x ∈ U) →
      ∀ v, v ∈ E → v ∉ acc.members → ∀ i < R,
        mapLookup ((E.foldl
          (fun acc v => if acc.members.contains v then acc else acc.add v) acc)).circle
          (hashKey (elementKey v i)) = some v := by
  intro E
  induction E with
  | nil => intro acc _ _ v hv; simp at hv
  | cons w E' ih =>
    intro acc hR hU v hv hvnotin i hi
    rw [List.foldl_cons]
    by_cases hw : acc.members.contains w
    · rw [if_pos hw]
      have hvw : v ≠ w := by
        intro he
        exact hvnotin (he ▸ (by simpa using hw))
      rcases List.mem_cons.mp hv with he | hv'
      · exact absurd he hvw
      · exact ih acc hR (fun x hx => hU x (List.mem_cons_of_mem _ hx)) v hv' hvnotin i hi
    · rw [if_neg hw]
      have hwm : w ∉ acc.members := by simpa using hw
      by_cases hvw : v = w
      · subst hvw
        have hown : mapLookup (acc.add v).circle (hashKey (elementKey v i)) = some v :=
          add_lookup_own acc v i (by rw [hR]; exact hi)
        have hpres : mapLookup ((E'.foldl
            (fun acc v => if acc.members.contains v then acc else acc.add v)
            (acc.add v))).circle (hashKey (elementKey v i)) =
            mapLookup (acc.add v).circle (hashKey (elementKey v i)) := by
          apply set_phase2_lookup_preserve
          intro w' hw' hw'notin j hj he
          rw [reps_add, hR] at hj
          have hvw' : v = w' := hcf v (hU v (List.mem_cons_self _ _)) w'
            (hU w' (List.mem_cons_of_mem _ hw')) i hi j hj he
          exact hw'notin (by
            rw [← hvw', members_add, mem_memInsert]
            exact Or.inl rfl)
        rw [hpres, hown]
      · have hv' : v ∈ E' := by
          rcases List.mem_cons.mp hv with he | hv'
          · exact absurd he hvw
          · exact hv'
        have hvacc' : v ∉ (acc.add w).members := by
          rw [members_add, mem_memInsert]
          rintro (he | hin)
          · exact hvw he
          · exact hvnotin hin
        exact ih (acc.add w) (by rw [reps_add, hR])
          (fun x hx => hU x (List.mem_cons_of_mem _ hx)) v hv' hvacc' i hi

theorem set_phase2_values :
    ∀ (E : List Node) (acc : Consistent) (p : Nat × Node),
      p ∈ (E.foldl
        (fun acc v => if acc.members.contains v then acc else acc.add v) acc).circle →
      (∃ w ∈ E, p.2 = w) ∨ p ∈ acc.circle := by
  intro E
  induction E with
  | nil => intro acc p h; exact Or.inr h
  | cons w E' ih =>
    intro acc p h
    rw [List.foldl_cons] at h
    by_cases hw : acc.members.contains w
    · rw [if_pos hw] at h
      rcases ih acc p h with ⟨w', hw', hpw⟩ | h2
      · exact Or.inl ⟨w', List.mem_cons_of_mem _ hw', hpw⟩
      · exact Or.inr h2
    · rw [if_neg hw] at h
      rcases ih _ p h with ⟨w', hw', hpw⟩ | h2
      · exact Or.inl ⟨w', List.mem_cons_of_mem _ hw', hpw⟩
      · rcases mem_add_circle acc w p h2 with hpw | h3
        · exact Or.inl ⟨w, List.mem_cons_self _ _, hpw⟩
        · exact Or.inr h3

end Consistent

namespace Consistent

theorem Set_eq (c : Consistent) (elems : List Node) :
    c.Set elems = elems.foldl
      (fun acc v => if acc.members.contains v then acc else acc.add v)
      (c.members.foldl
        (fun acc k => if elems.contains k then acc else acc.remove k) c) := rfl

theorem set_phase1_reps (elems : List Node) :
    ∀ (S : List Node) (acc : Consistent),
      (S.foldl (fun acc k => if elems.contains k then acc else acc.remove k)
        acc).NumberOfReplicas = acc.NumberOfReplicas := by
  intro S
  induction S with
  | nil => intro acc; rfl
  | cons k S' ih =>
    intro acc
    rw [List.foldl_cons]
    by_cases hk : elems.contains k
    · rw [if_pos hk, ih]
    · rw [if_neg hk, ih, reps_remove]

end Consistent

/-- C7 (amended): on a ring satisfying the documented state invariants
(valid map encoding, entries are replica positions of registered members,
each member owning all its replica positions) and for a handle list whose
replica keys are collision-free across current members and listed handles,
`Set(nodes)` makes the membership set exactly the set of handles in the
list (by handle equality), removes every unlisted member with all its
replica positions (its keys vanish and no entry maps to it), adds every
listed non-member with all its replica positions, and leaves already
present handles untouched (each of their replica keys maps to them exactly
as before).  Without collision-freeness the position-table clauses fail,
see the counterexample. -/
theorem c7_set_reconciles (c : Consistent) (elems : List Node)
    (hw : WF c) (hd : entriesDerived c) (hown : ownsAllReplicas c)
    (hcf : collisionFreeWith c elems) :
    (∀ x, x ∈ (c.Set elems).members ↔ x ∈ elems) ∧
    (∀ m ∈ c.members, m ∉ elems →
      (∀ i < c.NumberOfReplicas,
        mapLookup (c.Set elems).circle (hashKey (elementKey m i)) = none) ∧
      (∀ p ∈ (c.Set elems).circle, p.2 ≠ m)) ∧
    (∀ v ∈ elems, v ∉ c.members →
      ∀ i < c.NumberOfReplicas,
        mapLookup (c.Set elems).circle (hashKey (elementKey v i)) = some v) ∧
    (∀ v ∈ c.members, v ∈ elems →
      ∀ i < c.NumberOfReplicas,
        mapLookup (c.Set elems).circle (hashKey (elementKey v i)) =
          mapLookup c.circle (hashKey (elementKey v i)) ∧
        mapLookup (c.Set elems).circle (hashKey (elementKey v i)) = some v) := by
  obtain ⟨hkn, hci, hvals, hmem, hnodup, hcount⟩ := hw
  set c1 := c.members.foldl
    (fun acc k => if elems.contains k then acc else acc.remove k) c with hc1def
  have hc1reps : c1.NumberOfReplicas = c.NumberOfReplicas :=
    Consistent.set_phase1_reps elems c.members c
  have hcolM : ∀ p ∈ c.circle, ∀ k ∈ c.members, ∀ i < c.NumberOfReplicas,
      ∀ j < c.NumberOfReplicas,
      hashKey (elementKey p.2 i) = hashKey (elementKey k j) → p.2 = k := by
    intro p hp k hk i hi j hj he
    exact hcf p.2 (List.mem_append_left _ (hvals p hp)) k
      (List.mem_append_left _ hk) i hi j hj he
  have hc1circ : c1.circle = c.circle.filter (fun p => decide (p.2 ∈ elems)) := by
    rw [hc1def, Consistent.set_phase1_circle elems c.NumberOfReplicas c.members c rfl hd hcolM]
    apply List.filter_congr
    intro p hp
    have hpm : p.2 ∈ c.members := hvals p hp
    apply decide_eq_decide.mpr
    constructor
    · intro hni
      by_contra hne
      exact hni ⟨hpm, hne⟩
    · rintro hin ⟨-, hne⟩
      exact hne hin
  have hc1memb : ∀ x, x ∈ c1.members ↔ x ∈ c.members ∧ x ∈ elems := by
    intro x
    rw [hc1def, Consistent.set_phase1_mem]
    constructor
    · rintro ⟨hm, hni⟩
      refine ⟨hm, ?_⟩
      by_contra hne
      exact hni ⟨hm, hne⟩
    · rintro ⟨hm, he⟩
      exact ⟨hm, fun hand => hand.2 he⟩
  have hkn1 : keysNodup c1.circle := by
    rw [hc1circ]
    exact hkn.sublist ((List.filter_sublist c.circle).map Prod.fst)
  refine ⟨?_, ?_, ?_, ?_⟩
  · exact set_members_exact c elems
  · intro m hm hme
    constructor
    · intro i hi
      have hpreserve : mapLookup (c.Set elems).circle (hashKey (elementKey m i)) =
          mapLookup c1.circle (hashKey (elementKey m i)) := by
        rw [Consistent.Set_eq, ← hc1def]
        apply Consistent.set_phase2_lookup_preserve
        intro w hwE hwnot j hj he
        rw [hc1reps] at hj
        have : m = w := hcf m (List.mem_append_left _ hm) w
          (List.mem_append_right _ hwE) i hi j hj he
        exact hme (this ▸ hwE)
      rw [hpreserve]
      cases hlk : mapLookup c1.circle (hashKey (elementKey m i)) with
      | none => rfl
      | some w =>
        exfalso
        have hpair1 := Consistent.mem_of_mapLookup_eq_some hlk
        rw [hc1circ] at hpair1
        rcases List.mem_filter.mp hpair1 with ⟨hqc, hqe⟩
        have hpairm := Consistent.mem_of_mapLookup_eq_some (hown m hm i hi)
        have : (hashKey (elementKey m i), w) = (hashKey (elementKey m i), m) :=
          List.inj_on_of_nodup_map hkn hqc hpairm rfl
        have hwm : w = m := by simpa using congrArg Prod.snd this
        rw [hwm] at hqe
        exact hme (by simpa using hqe)
    · intro p hp
      rw [Consistent.Set_eq, ← hc1def] at hp
      rcases Consistent.set_phase2_values elems c1 p hp with ⟨w, hwE, hpw⟩ | hp1
      · intro he
        refine hme ?_
        rw [← he, hpw]
        exact hwE
      · rw [hc1circ] at hp1
        rcases List.mem_filter.mp hp1 with ⟨-, hqe⟩
        intro he
        exact hme (by rw [← he]; simpa using hqe)
  · intro v hvE hvM i hi
    rw [Consistent.Set_eq, ← hc1def]
    apply Consistent.set_phase2_added_owns (c.members ++ elems) c.NumberOfReplicas
      hcf elems c1 hc1reps (fun x hx => List.mem_append_right _ hx) v hvE ?_ i hi
    rw [hc1memb]
    rintro ⟨hvM', -⟩
    exact hvM hvM'
  · intro v hvM hvE i hi
    have hpreserve : mapLookup (c.Set elems).circle (hashKey (elementKey v i)) =
        mapLookup c1.circle (hashKey (elementKey v i)) := by
      rw [Consistent.Set_eq, ← hc1def]
      apply Consistent.set_phase2_lookup_preserve
      intro w hwE hwnot j hj he
      rw [hc1reps] at hj
      have hvw : v = w := hcf v (List.mem_append_left _ hvM) w
        (List.mem_append_right _ hwE) i hi j hj he
      exact hwnot (by rw [← hvw, hc1memb]; exact ⟨hvM, hvE⟩)
    have hc1look : mapLookup c1.circle (hashKey (elementKey v i)) = some v := by
      apply Consistent.mapLookup_eq_some_of_mem hkn1
      rw [hc1circ, List.mem_filter]
      exact ⟨Consistent.mem_of_mapLookup_eq_some (hown v hvM i hi), by simpa using hvE⟩
    refine ⟨?_, ?_⟩
    · rw [hpreserve, hc1look, hown v hvM i hi]
    · rw [hpreserve, hc1look]

/-- C7, counterexample: the position-table clauses of the claim fail on
handles with colliding replica keys.  `nodeA2` is a distinct handle that
reports the same name as `nodeA`, so both derive the same replica key.  On
a ring holding the single member `nodeA`, `Set([nodeA, nodeA2])` keeps the
already-present `nodeA` a member, but `add(nodeA2)` overwrites its only
replica position: `nodeA` is not left untouched (it ends with no position
at all), refuting the claim as stated for arbitrary ring states and handle
lists. -/
theorem c7_counterexample :
    nodeA ∈ (ringR1.Add nodeA).members ∧
    nodeA ∈ [nodeA, nodeA2] ∧
    nodeA2 ≠ nodeA ∧
    elementKey nodeA2 0 = elementKey nodeA 0 ∧
    mapLookup (ringR1.Add nodeA).circle (hashKey (elementKey nodeA 0)) = some nodeA ∧
    mapLookup ((ringR1.Add nodeA).Set [nodeA, nodeA2]).circle
      (hashKey (elementKey nodeA 0)) = some nodeA2 := by decide

/-- C7, witness: the reconciliation theorem instantiated on the two-node
ring `{nodeA, nodeB}` with target list `[nodeA, nodeC]`: `nodeB` is dropped
with its position, `nodeC` is added with its position, `nodeA` is kept
untouched. -/
theorem c7_witness :
    WF ringAB ∧ entriesDerived ringAB ∧ ownsAllReplicas ringAB ∧
    collisionFreeWith ringAB [nodeA, nodeC] ∧
    ((∀ x, x ∈ (ringAB.Set [nodeA, nodeC]).members ↔ x ∈ [nodeA, nodeC]) ∧
     (∀ m ∈ ringAB.members, m ∉ [nodeA, nodeC] →
       (∀ i < ringAB.NumberOfReplicas,
         mapLookup (ringAB.Set [nodeA, nodeC]).circle (hashKey (elementKey m i)) = none) ∧
       (∀ p ∈ (ringAB.Set [nodeA, nodeC]).circle, p.2 ≠ m)) ∧
     (∀ v ∈ [nodeA, nodeC], v ∉ ringAB.members →
       ∀ i < ringAB.NumberOfReplicas,
         mapLookup (ringAB.Set [nodeA, nodeC]).circle (hashKey (elementKey v i)) = some v) ∧
     (∀ v ∈ ringAB.members, v ∈ [nodeA, nodeC] →
       ∀ i < ringAB.NumberOfReplicas,
         mapLookup (ringAB.Set [nodeA, nodeC]).circle (hashKey (elementKey v i)) =
           mapLookup ringAB.circle (hashKey (elementKey v i)) ∧
         mapLookup (ringAB.Set [nodeA, nodeC]).circle (hashKey (elementKey v i)) = some v)) :=
  ⟨by decide, by decide, by decide, by decide,
    c7_set_reconciles ringAB [nodeA, nodeC] (by decide) (by decide) (by decide) (by decide)⟩
